import Mathlib

/-!
Verification of the reply-binding layer of redigo (redis/scan.go).

The Go source converts decoded reply values (nil, []byte, int64,
[]interface{}, Error) into typed destinations, compiles struct field
specifications with tag renaming and embedded-field shadowing, and
flattens structs back into alternating name/value argument lists.

The shallow embedding below mirrors scan.go:
  - `Dyn` models Go's `interface{}` universe as it occurs in this file:
    the decoded reply values plus Go strings and arbitrary reflected
    values (which arise from `AppendStruct`).
  - `GoVal` models a typed destination cell as seen through
    `reflect.Value`: its kind, width and current contents.  Struct
    values carry per-field name/tag/visibility/embedding metadata, which
    is exactly the information `reflect.Type` exposes to
    `compileStructSpec`.  Floating-point destinations are not modelled.
  - `strconv` parsing/formatting is modelled by `parseIntGo`,
    `parseUintGo`, `parseBoolGo` (Go returns the clamped/zero value
    together with the error; the callers store it regardless).
  - machine integer overflow is modelled with explicit `% 2 ^ w`.
-/

/-- The error outcomes of scan.go.  `protoError` is a protocol-level
`Error` reply propagated as the failure (`case Error: err = s`). -/
inductive ConvErr where
  | errCannotConvert
  | errRange
  | errParse
  | protoError (msg : String)
  | errShortScan
  | errOddLength
  | errKeyNotBulk
  | errInvalidDest
  | errAppendNil
  | errAppendNotStruct
deriving DecidableEq, Repr

/-- Signed integer kinds of reflect: Int, Int8, Int16, Int32, Int64.
On the platforms redigo targets `int` has 64 bits. -/
inductive IntKind where
  | iInt | i8 | i16 | i32 | i64
deriving DecidableEq, Repr

/-- Unsigned integer kinds of reflect: Uint, Uint8, Uint16, Uint32, Uint64. -/
inductive UintKind where
  | uInt | u8 | u16 | u32 | u64
deriving DecidableEq, Repr

/-- Bit width of a signed kind (d.Type().Bits()). -/
def width : IntKind → Nat
  | .iInt => 64 | .i8 => 8 | .i16 => 16 | .i32 => 32 | .i64 => 64

/-- Bit width of an unsigned kind (d.Type().Bits()). -/
def uwidth : UintKind → Nat
  | .uInt => 64 | .u8 => 8 | .u16 => 16 | .u32 => 32 | .u64 => 64

mutual
/-- A typed Go destination cell (kind + current value), as reflect sees
it.  `vBytes` is a `[]byte` slice (bytes as the characters of a Lean
string), `vList` is `[]interface{}`, `vAny` an `interface{}` cell,
`vStruct` a struct whose fields carry their reflection metadata, and
`vOther` any kind scan.go does not handle. -/
inductive GoVal where
  | vInt (k : IntKind) (n : Int)
  | vUint (k : UintKind) (n : Nat)
  | vBool (b : Bool)
  | vString (s : String)
  | vBytes (s : String)
  | vList (xs : List Dyn)
  | vAny (o : Option Dyn)
  | vStruct (fs : List GoFieldV)
  | vOther

/-- One struct field as reflect.StructField exposes it: declared name,
the `redis` tag value, exported-ness (PkgPath == ""), anonymity
(embedded), and the field's value. -/
inductive GoFieldV where
  | mk (name tag : String) (exported anonymous : Bool) (v : GoVal)

/-- A dynamically typed Go value (`interface{}`) as it occurs in
scan.go's sources and argument lists: the decoded reply kinds
(nil, []byte, int64, []interface{}, Error) plus Go strings
(`dynStr`, distinct from []byte for type switches) and any other
reflected value (`dynGo`). -/
inductive Dyn where
  | dynNull
  | dynBytes (s : String)
  | dynInt (n : Int)
  | dynStr (s : String)
  | dynList (xs : List Dyn)
  | dynErr (m : String)
  | dynGo (v : GoVal)
end

/-- Value of a decimal digit character, none for non-digits. -/
def digitVal (c : Char) : Option Nat :=
  if 48 ≤ c.toNat ∧ c.toNat ≤ 57 then some (c.toNat - 48) else none

/-- Accumulate base-10 digits; fails on the first non-digit. -/
def parseDigitsAux : List Char → Nat → Option Nat
  | [], acc => some acc
  | c :: cs, acc =>
    match digitVal c with
    | some d => parseDigitsAux cs (acc * 10 + d)
    | none => none

/-- A non-empty all-digit string's value, none otherwise. -/
def parseDigits : List Char → Option Nat
  | [] => none
  | c :: cs => parseDigitsAux (c :: cs) 0

/-- strconv.ParseInt(s, 10, bits): an optional single sign followed by
decimal digits.  Go returns the parsed value, clamped to the bit-width
range together with ErrRange on overflow, and 0 with a syntax error on
malformed text; the callers store that returned value unconditionally. -/
def parseIntGo (s : String) (bits : Nat) : Int × Option ConvErr :=
  match s.data with
  | [] => (0, some .errParse)
  | c :: rest =>
    let p : Bool × List Char :=
      if c = '-' then (true, rest)
      else if c = '+' then (false, rest)
      else (false, c :: rest)
    match parseDigits p.2 with
    | none => (0, some .errParse)
    | some n =>
      let v : Int := if p.1 then -(n : Int) else (n : Int)
      let lo : Int := -((2 : Int) ^ (bits - 1))
      let hi : Int := (2 : Int) ^ (bits - 1) - 1
      if v < lo then (lo, some .errRange)
      else if hi < v then (hi, some .errRange)
      else (v, none)

/-- strconv.ParseUint(s, 10, bits): decimal digits, no sign allowed. -/
def parseUintGo (s : String) (bits : Nat) : Nat × Option ConvErr :=
  match parseDigits s.data with
  | none => (0, some .errParse)
  | some n =>
    if (2 : Nat) ^ bits - 1 < n then (2 ^ bits - 1, some .errRange) else (n, none)

/-- strconv.ParseBool: the conventional boolean-literal spellings. -/
def parseBoolGo (s : String) : Bool × Option ConvErr :=
  if s = "1" ∨ s = "t" ∨ s = "T" ∨ s = "true" ∨ s = "TRUE" ∨ s = "True" then (true, none)
  else if s = "0" ∨ s = "f" ∨ s = "F" ∨ s = "false" ∨ s = "FALSE" ∨ s = "False" then
    (false, none)
  else (false, some .errParse)

/-- Most-significant-first decimal digits of n (fuel-driven so that the
kernel can evaluate it); correct whenever n < fuel. -/
def natDigits : Nat → Nat → List Nat
  | 0, _ => []
  | fuel + 1, n => if n < 10 then [n] else natDigits fuel (n / 10) ++ [n % 10]

/-- The character of a digit value below ten. -/
def digitChar : Nat → Char
  | 0 => '0' | 1 => '1' | 2 => '2' | 3 => '3' | 4 => '4'
  | 5 => '5' | 6 => '6' | 7 => '7' | 8 => '8' | _ => '9'

/-- Canonical decimal form of a natural number (strconv.FormatUint). -/
def formatNat (n : Nat) : String :=
  String.mk ((natDigits (n + 1) n).map digitChar)

/-- Canonical decimal form of an integer (strconv.FormatInt). -/
def formatInt (i : Int) : String :=
  if i < 0 then String.mk ('-' :: (natDigits (i.natAbs + 1) i.natAbs).map digitChar)
  else formatNat i.natAbs

/-- Two's-complement truncation of s to w bits, then sign extension:
the value reflect's d.SetInt stores and d.Int() reads back on a w-bit
destination. -/
def wrapSigned (w : Nat) (s : Int) : Int :=
  if s % (2 : Int) ^ w < (2 : Int) ^ (w - 1) then s % (2 : Int) ^ w
  else s % (2 : Int) ^ w - (2 : Int) ^ w

/-- convertAssignBytes (scan.go:31-61): convert one []byte source into
a typed destination cell.  The Go code stores the value strconv returns
even when strconv also reports an error.  Floating-point destinations
(the reflect.Float32/Float64 cases) are outside this model. -/
def convertAssignBytes (d : GoVal) (s : String) : GoVal × Option ConvErr :=
  match d with
  | .vInt k _ =>
    let r := parseIntGo s (width k)
    (.vInt k r.1, r.2)
  | .vUint k _ =>
    let r := parseUintGo s (uwidth k)
    (.vUint k r.1, r.2)
  | .vBool _ =>
    let r := parseBoolGo s
    (.vBool r.1, r.2)
  | .vString _ => (.vString s, none)
  | .vBytes _ => (.vBytes s, none)
  | d => (d, some .errCannotConvert)

/-- convertAssignInt (scan.go:63-88): convert one int64 source into a
typed destination cell.  For a signed destination Go stores the
truncated value, reads it back, and on mismatch reports ErrRange and
resets the cell to 0; for an unsigned destination a negative source
fails before the cell is touched, and overflow resets the cell to 0. -/
def convertAssignInt (d : GoVal) (s : Int) : GoVal × Option ConvErr :=
  match d with
  | .vInt k _ =>
    if wrapSigned (width k) s = s then (.vInt k s, none)
    else (.vInt k 0, some .errRange)
  | .vUint k old =>
    if s < 0 then (.vUint k old, some .errRange)
    else if s.toNat % 2 ^ uwidth k = s.toNat then (.vUint k s.toNat, none)
    else (.vUint k 0, some .errRange)
  | .vBool _ => (.vBool (s != 0), none)
  | d => (d, some .errCannotConvert)

theorem width_pos (k : IntKind) : 1 ≤ width k := by cases k <;> decide

theorem uwidth_pos (uk : UintKind) : 1 ≤ uwidth uk := by cases uk <;> decide

/-- Characterization of the stored-and-read-back signed value: it equals
the source exactly when the source fits the destination width. -/
theorem wrapSigned_eq_self_iff (w : Nat) (hw : 1 ≤ w) (s : Int) :
    wrapSigned w s = s ↔ -((2 : Int) ^ (w - 1)) ≤ s ∧ s < (2 : Int) ^ (w - 1) := by
  have h2 : ((2 : Int) ^ w) = 2 * 2 ^ (w - 1) := by
    conv_lhs => rw [show w = (w - 1) + 1 by omega]
    rw [pow_succ]; ring
  have hpos : (0 : Int) < 2 ^ w := by positivity
  have hm : 0 ≤ s % 2 ^ w := Int.emod_nonneg s (ne_of_gt hpos)
  have hmlt : s % 2 ^ w < 2 ^ w := Int.emod_lt_of_pos s hpos
  constructor
  · intro h
    unfold wrapSigned at h
    split at h <;> omega
  · rintro ⟨h1, hlt⟩
    unfold wrapSigned
    rcases le_or_lt 0 s with hs | hs
    · have hmod : s % 2 ^ w = s := Int.emod_eq_of_lt hs (by omega)
      rw [hmod, if_pos hlt]
    · have hrw : s % 2 ^ w = s + 2 ^ w := by
        have e1 : (s + 2 ^ w * 1) % 2 ^ w = s % 2 ^ w := Int.add_mul_emod_self_left s (2 ^ w) 1
        rw [mul_one] at e1
        have e2 : (s + 2 ^ w) % 2 ^ w = s + 2 ^ w :=
          Int.emod_eq_of_lt (by omega) (by omega)
        omega
      rw [hrw, if_neg (by omega)]
      omega

/-- C8: for every signed or unsigned integer destination width and every
Integer source s, if s fits the destination the scalar conversion stores
s exactly (reading the destination back yields s); if s does not fit
(overflow, or s < 0 into an unsigned destination) the conversion fails
with a range error and never leaves a silently truncated value readable
as success. -/
theorem c8_integer_conversion (k : IntKind) (uk : UintKind) (old : Int) (uold : Nat)
    (s : Int) :
    ((-((2 : Int) ^ (width k - 1)) ≤ s ∧ s < (2 : Int) ^ (width k - 1) →
        convertAssignInt (.vInt k old) s = (.vInt k s, none)) ∧
      (¬(-((2 : Int) ^ (width k - 1)) ≤ s ∧ s < (2 : Int) ^ (width k - 1)) →
        convertAssignInt (.vInt k old) s = (.vInt k 0, some .errRange))) ∧
    ((0 ≤ s ∧ s < (2 : Int) ^ uwidth uk →
        convertAssignInt (.vUint uk uold) s = (.vUint uk s.toNat, none) ∧
          (s.toNat : Int) = s) ∧
      (s < 0 ∨ (2 : Int) ^ uwidth uk ≤ s →
        ∃ r, convertAssignInt (.vUint uk uold) s = (.vUint uk r, some .errRange))) := by
  have hwk := width_pos k
  have hwu := uwidth_pos uk
  refine ⟨⟨?_, ?_⟩, ?_, ?_⟩
  · intro h
    have := (wrapSigned_eq_self_iff (width k) hwk s).mpr h
    simp [convertAssignInt, this]
  · intro h
    have : wrapSigned (width k) s ≠ s := fun he =>
      h ((wrapSigned_eq_self_iff (width k) hwk s).mp he)
    simp [convertAssignInt, this]
  · rintro ⟨h0, hlt⟩
    have hcast : (s.toNat : Int) = s := Int.toNat_of_nonneg h0
    have hlt' : s.toNat < 2 ^ uwidth uk := by
      have : ((2 : Int) ^ uwidth uk) = ((2 ^ uwidth uk : Nat) : Int) := by push_cast; ring
      omega
    have hmod : s.toNat % 2 ^ uwidth uk = s.toNat := Nat.mod_eq_of_lt hlt'
    simp [convertAssignInt, not_lt.mpr h0, hmod, hcast]
  · intro h
    rcases h with h | h
    · exact ⟨uold, by simp [convertAssignInt, h]⟩
    · have h0 : 0 ≤ s := le_trans (by positivity) h
      have hge : 2 ^ uwidth uk ≤ s.toNat := by
        have : ((2 : Int) ^ uwidth uk) = ((2 ^ uwidth uk : Nat) : Int) := by push_cast; ring
        omega
      have hmod : s.toNat % 2 ^ uwidth uk ≠ s.toNat := by
        have : s.toNat % 2 ^ uwidth uk < 2 ^ uwidth uk :=
          Nat.mod_lt _ (by positivity)
        omega
      exact ⟨0, by simp [convertAssignInt, not_lt.mpr h0, hmod]⟩

theorem c8_integer_conversion_witness :
    ((-((2 : Int) ^ (width .i8 - 1)) ≤ (100 : Int) ∧ (100 : Int) < (2 : Int) ^ (width .i8 - 1)) ∧
        convertAssignInt (.vInt .i8 7) 100 = (.vInt .i8 100, none)) ∧
      (((300 : Int) < 0 ∨ (2 : Int) ^ uwidth .u8 ≤ (300 : Int)) ∧
        ∃ r, convertAssignInt (.vUint .u8 7) 300 = (.vUint .u8 r, some .errRange)) := by
  refine ⟨⟨by decide, ?_⟩, ⟨by decide, ?_⟩⟩
  · exact (c8_integer_conversion .i8 .u8 7 7 100).1.1 (by decide)
  · exact (c8_integer_conversion .i8 .u8 7 7 300).2.2 (by decide)

/-- C10: when conversion of an Integer source into an integer
destination fails with a range error because the value does not fit the
destination width, the destination is left set to zero; when it fails
because the source is negative and the destination is unsigned, the
destination is left unmodified. -/
theorem c10_range_error_dest (k : IntKind) (uk : UintKind) (old : Int) (uold : Nat)
    (s : Int) :
    (¬(-((2 : Int) ^ (width k - 1)) ≤ s ∧ s < (2 : Int) ^ (width k - 1)) →
        convertAssignInt (.vInt k old) s = (.vInt k 0, some .errRange)) ∧
    (s < 0 → convertAssignInt (.vUint uk uold) s = (.vUint uk uold, some .errRange)) ∧
    (0 ≤ s → (2 : Int) ^ uwidth uk ≤ s →
        convertAssignInt (.vUint uk uold) s = (.vUint uk 0, some .errRange)) := by
  refine ⟨?_, ?_, ?_⟩
  · intro h
    have : wrapSigned (width k) s ≠ s := fun he =>
      h ((wrapSigned_eq_self_iff (width k) (width_pos k) s).mp he)
    simp [convertAssignInt, this]
  · intro h
    simp [convertAssignInt, h]
  · intro h0 h
    have hge : 2 ^ uwidth uk ≤ s.toNat := by
      have : ((2 : Int) ^ uwidth uk) = ((2 ^ uwidth uk : Nat) : Int) := by push_cast; ring
      omega
    have hmod : s.toNat % 2 ^ uwidth uk ≠ s.toNat := by
      have : s.toNat % 2 ^ uwidth uk < 2 ^ uwidth uk := Nat.mod_lt _ (by positivity)
      omega
    simp [convertAssignInt, not_lt.mpr h0, hmod]

theorem c10_range_error_dest_witness :
    (¬(-((2 : Int) ^ (width .i8 - 1)) ≤ (300 : Int) ∧ (300 : Int) < (2 : Int) ^ (width .i8 - 1)) ∧
        convertAssignInt (.vInt .i8 5) 300 = (.vInt .i8 0, some .errRange)) ∧
      (((-4 : Int) < 0) ∧
        convertAssignInt (.vUint .u8 5) (-4) = (.vUint .u8 5, some .errRange)) := by
  refine ⟨⟨by decide, ?_⟩, ⟨by decide, ?_⟩⟩
  · exact (c10_range_error_dest .i8 .u8 5 5 300).1 (by decide)
  · exact (c10_range_error_dest .i8 .u8 5 5 (-4)).2.1 (by decide)

/-- Element loop of convertAssignValues for a []byte destination: each
element is a Uint8 cell converted through convertAssignBytes or
convertAssignInt, stopping at the first failure. -/
def convValuesBytes : List Dyn → List Char × Option ConvErr
  | [] => ([], none)
  | s :: rest =>
    let r : GoVal × Option ConvErr :=
      match s with
      | .dynBytes bs => convertAssignBytes (.vUint .u8 0) bs
      | .dynInt n => convertAssignInt (.vUint .u8 0) n
      | _ => (.vUint .u8 0, some .errCannotConvert)
    match r with
    | (.vUint _ x, none) =>
      let t := convValuesBytes rest
      (Char.ofNat x :: t.1, t.2)
    | (.vUint _ x, some e) => ([Char.ofNat x], some e)
    | (_, e) => ([], e)

/-- convertAssignValues (scan.go:90-113): convert a []interface{}
source into a slice destination.  The modelled slice kinds are []byte
(element kind Uint8, converted element-wise) and []interface{}
(`vList`, whose interface-kinded elements make every non-empty
conversion fail; convertAssign handles *[]interface{} before falling
back to reflection, so this path concerns named slice types only).
Go reuses the destination's backing array when its capacity suffices,
which can retain old contents beyond a mid-sequence failure; the model
uses the fresh-allocation behaviour (zero-filled tail), the only case
the theorems below depend on. -/
def convertAssignValues (d : GoVal) (s : List Dyn) : GoVal × Option ConvErr :=
  match d with
  | .vBytes _ =>
    let r := convValuesBytes s
    (.vBytes (String.mk (r.1 ++ List.replicate (s.length - r.1.length) (Char.ofNat 0))), r.2)
  | .vList _ =>
    match s with
    | [] => (.vList [], none)
    | _ => (.vList (List.replicate s.length .dynNull), some .errCannotConvert)
  | d => (d, some .errCannotConvert)

/-- A positional-scan destination as passed to Scan: nil (skip the
value), a non-nil non-pointer (conversion error for every non-nil
non-Error source), or a pointer to a typed cell.  Typed nil pointers,
through which the Go code faults, are outside this model. -/
inductive Dest where
  | dNil
  | dNonPtr
  | dPtr (v : GoVal)

/-- convertAssign (scan.go:115-185).  The typed fast paths for *string,
*int, *bool and *[]byte coincide with the reflection fallback on 64-bit
platforms and are not distinguished; the *interface{} and
*[]interface{} paths differ from the reflection fallback and are. -/
def convertAssign (d : Dest) (s : Dyn) : Dest × Option ConvErr :=
  match s with
  | .dynNull => (d, none)
  | .dynBytes bs =>
    match d with
    | .dNil => (d, none)
    | .dNonPtr => (d, some .errCannotConvert)
    | .dPtr v =>
      match v with
      | .vAny _ => (.dPtr (.vAny (some (.dynBytes bs))), none)
      | v =>
        let r := convertAssignBytes v bs
        (.dPtr r.1, r.2)
  | .dynInt n =>
    match d with
    | .dNil => (d, none)
    | .dNonPtr => (d, some .errCannotConvert)
    | .dPtr v =>
      match v with
      | .vAny _ => (.dPtr (.vAny (some (.dynInt n))), none)
      | v =>
        let r := convertAssignInt v n
        (.dPtr r.1, r.2)
  | .dynList xs =>
    match d with
    | .dNil => (d, none)
    | .dNonPtr => (d, some .errCannotConvert)
    | .dPtr v =>
      match v with
      | .vList _ => (.dPtr (.vList xs), none)
      | .vAny _ => (.dPtr (.vAny (some (.dynList xs))), none)
      | v =>
        let r := convertAssignValues v xs
        (.dPtr r.1, r.2)
  | .dynErr m => (d, some (.protoError m))
  | .dynStr _ => (d, some .errCannotConvert)
  | .dynGo _ => (d, some .errCannotConvert)

/-- Result of Scan: the remainder slice (none models Go's nil), the
destinations after the in-place writes, and the error. -/
structure ScanRes where
  rem : Option (List Dyn)
  dests : List Dest
  err : Option ConvErr

/-- The destination loop of Scan (scan.go:205-210): convert
destination-by-destination, stopping at the first failure (the source
is known to be at least as long as the destination list here). -/
def scanLoop : List Dest → List Dyn → List Dest × Option ConvErr
  | [], _ => ([], none)
  | d :: ds, [] => (d :: ds, none)
  | d :: ds, s :: ss =>
    match convertAssign d s with
    | (d', none) =>
      let r := scanLoop ds ss
      (d' :: r.1, r.2)
    | (d', some e) => (d' :: ds, some e)

/-- Scan (scan.go:200-212): copy from the multi-bulk src to the
destinations and return the slice of src following the copied values. -/
def Scan (src : List Dyn) (dest : List Dest) : ScanRes :=
  if src.length < dest.length then ⟨none, dest, some .errShortScan⟩
  else
    let r := scanLoop dest src
    ⟨some (src.drop dest.length), r.1, r.2⟩

/-- The value-conversion switch inside ScanStruct's loop
(scan.go:349-358): nil is ignored, []byte and int64 convert, and any
other source kind, protocol-level Error values included, is a
cannotConvert failure. -/
def convertField (f : GoVal) (s : Dyn) : GoVal × Option ConvErr :=
  match s with
  | .dynNull => (f, none)
  | .dynBytes bs => convertAssignBytes f bs
  | .dynInt n => convertAssignInt f n
  | _ => (f, some .errCannotConvert)

/-- C6: positional scan fails with the short-sequence error whenever the
source has fewer values than destinations, regardless of contents;
whenever it succeeds it returns exactly the unconsumed suffix of the
source, of length len(values) - len(dests). -/
theorem c6_short_and_remainder (src : List Dyn) (dest : List Dest) :
    (src.length < dest.length → Scan src dest = ⟨none, dest, some .errShortScan⟩) ∧
    ((Scan src dest).err = none →
      (Scan src dest).rem = some (src.drop dest.length) ∧
        (src.drop dest.length).length = src.length - dest.length) := by
  constructor
  · intro h
    simp [Scan, h]
  · intro he
    by_cases h : src.length < dest.length
    · simp [Scan, h] at he
    · exact ⟨by simp [Scan, h], by simp⟩

theorem c6_short_and_remainder_witness :
    (([Dyn.dynInt 1].length < [Dest.dNil, Dest.dNil].length) ∧
        Scan [.dynInt 1] [.dNil, .dNil] = ⟨none, [.dNil, .dNil], some .errShortScan⟩) ∧
      ((Scan [Dyn.dynInt 1, Dyn.dynInt 2, Dyn.dynInt 3] [Dest.dNil]).err = none ∧
        (Scan [Dyn.dynInt 1, Dyn.dynInt 2, Dyn.dynInt 3] [Dest.dNil]).rem =
            some [Dyn.dynInt 2, Dyn.dynInt 3] ∧
          [Dyn.dynInt 2, Dyn.dynInt 3].length = 3 - 1) := by
  refine ⟨⟨by decide, (c6_short_and_remainder _ _).1 (by decide)⟩, ⟨rfl, ?_, by decide⟩⟩
  have h := (c6_short_and_remainder [Dyn.dynInt 1, Dyn.dynInt 2, Dyn.dynInt 3] [Dest.dNil]).2 rfl
  exact h.1

/-- Characterization of the scan loop given enough source values: some
prefix of length k converts successfully, a failure (if any) stops the
loop at position k, and destinations after k keep their old values. -/
theorem scanLoop_char (dest : List Dest) (src : List Dyn) (h : dest.length ≤ src.length) :
    ∃ k, k ≤ dest.length ∧
      (scanLoop dest src).1.length = dest.length ∧
      (∀ i, i < k → ∃ di si di',
        dest[i]? = some di ∧ src[i]? = some si ∧
          convertAssign di si = (di', none) ∧ (scanLoop dest src).1[i]? = some di') ∧
      ((scanLoop dest src).2 = none → k = dest.length) ∧
      (∀ e, (scanLoop dest src).2 = some e → k < dest.length ∧ ∃ dk sk dk',
        dest[k]? = some dk ∧ src[k]? = some sk ∧
          convertAssign dk sk = (dk', some e) ∧ (scanLoop dest src).1[k]? = some dk') ∧
      (∀ i, k < i → (scanLoop dest src).1[i]? = dest[i]?) := by
  induction dest generalizing src with
  | nil =>
    refine ⟨0, le_refl _, by simp [scanLoop], ?_, ?_, ?_, ?_⟩
    · intro i hi; omega
    · intro _; rfl
    · intro e he; simp [scanLoop] at he
    · intro i _; simp [scanLoop]
  | cons d ds ih =>
    cases src with
    | nil => simp at h
    | cons s ss =>
      have h' : ds.length ≤ ss.length := by simpa using h
      rcases hc : convertAssign d s with ⟨d', e?⟩
      cases e? with
      | none =>
        have heq : scanLoop (d :: ds) (s :: ss) =
            (d' :: (scanLoop ds ss).1, (scanLoop ds ss).2) := by
          simp [scanLoop, hc]
        obtain ⟨k, hk, hlen, hpre, hnone, hsome, hpost⟩ := ih ss h'
        refine ⟨k + 1, by simpa using Nat.succ_le_succ hk, ?_, ?_, ?_, ?_, ?_⟩
        · simp [heq, hlen]
        · intro i hi
          cases i with
          | zero => exact ⟨d, s, d', by simp [heq, hc]⟩
          | succ j =>
            obtain ⟨dj, sj, dj', h1, h2, h3, h4⟩ := hpre j (by omega)
            exact ⟨dj, sj, dj', by simpa using h1, by simpa using h2, h3, by simp [heq, h4]⟩
        · intro hn
          rw [heq] at hn
          have := hnone hn
          simp [this]
        · intro e he
          rw [heq] at he
          obtain ⟨hlt, dk, sk, dk', h1, h2, h3, h4⟩ := hsome e he
          refine ⟨by simpa using Nat.succ_lt_succ hlt, dk, sk, dk', ?_, ?_, h3, ?_⟩
          · simpa using h1
          · simpa using h2
          · simp [heq, h4]
        · intro i hi
          cases i with
          | zero => omega
          | succ j => simp [heq, hpost j (by omega)]
      | some e0 =>
        have heq : scanLoop (d :: ds) (s :: ss) = (d' :: ds, some e0) := by
          simp [scanLoop, hc]
        refine ⟨0, by omega, by simp [heq], ?_, ?_, ?_, ?_⟩
        · intro i hi; omega
        · intro hn; rw [heq] at hn; simp at hn
        · intro e he
          rw [heq] at he
          simp at he
          subst he
          exact ⟨by simp, d, s, d', by simp, by simp, hc, by simp [heq]⟩
        · intro i hi
          cases i with
          | zero => omega
          | succ j => simp [heq]

/-- C9: with at least as many source values as destinations, the
positional scan returns the remainder src[len(dest):] even when it
reports a conversion error; conversion proceeds left to right, stops at
the first failing destination, destinations before the failure keep
their converted values, and destinations after the failing one are left
unmodified. -/
theorem c9_scan_frame (src : List Dyn) (dest : List Dest) (h : dest.length ≤ src.length) :
    (Scan src dest).rem = some (src.drop dest.length) ∧
    ∃ k, k ≤ dest.length ∧
      (Scan src dest).dests.length = dest.length ∧
      (∀ i, i < k → ∃ di si di',
        dest[i]? = some di ∧ src[i]? = some si ∧
          convertAssign di si = (di', none) ∧ (Scan src dest).dests[i]? = some di') ∧
      ((Scan src dest).err = none → k = dest.length) ∧
      (∀ e, (Scan src dest).err = some e → k < dest.length ∧ ∃ dk sk dk',
        dest[k]? = some dk ∧ src[k]? = some sk ∧
          convertAssign dk sk = (dk', some e) ∧ (Scan src dest).dests[k]? = some dk') ∧
      (∀ i, k < i → (Scan src dest).dests[i]? = dest[i]?) := by
  have hns : ¬src.length < dest.length := not_lt.mpr h
  have hS : Scan src dest =
      ⟨some (src.drop dest.length), (scanLoop dest src).1, (scanLoop dest src).2⟩ := by
    simp [Scan, hns]
  rw [hS]
  exact ⟨rfl, scanLoop_char dest src h⟩

theorem c9_scan_frame_witness :
    ([Dest.dPtr (.vInt .i8 0)].length ≤ [Dyn.dynInt 5, Dyn.dynInt 9].length) ∧
      (Scan [Dyn.dynInt 5, Dyn.dynInt 9] [Dest.dPtr (.vInt .i8 0)]).rem =
        some [Dyn.dynInt 9] := by
  have h := c9_scan_frame [Dyn.dynInt 5, Dyn.dynInt 9] [Dest.dPtr (.vInt .i8 0)] (by decide)
  exact ⟨by decide, h.1⟩

/-- fieldSpec (scan.go:214-218): resolved name and FieldByIndex path. -/
structure fieldSpec where
  name : String
  index : List Nat
deriving DecidableEq, Repr

/-- structSpec (scan.go:220-223): name-to-fieldSpec map (modelled as an
association list with unique keys) and the ordered field list. -/
structure structSpec where
  m : List (String × fieldSpec)
  l : List fieldSpec
deriving DecidableEq, Repr

/-- Go map read. -/
def lookupA {α : Type} : List (String × α) → String → Option α
  | [], _ => none
  | (k, v) :: rest, n => if k = n then some v else lookupA rest n

/-- Go map write (replaces the entry when the key is present). -/
def insertA {α : Type} : List (String × α) → String → α → List (String × α)
  | [], n, v => [(n, v)]
  | (k, w) :: rest, n, v =>
    if k = n then (n, v) :: rest else (k, w) :: insertA rest n v

/-- Go map delete.  The maps here always have unique keys, for which
removing every matching entry coincides with Go's delete. -/
def eraseA {α : Type} : List (String × α) → String → List (String × α)
  | [], _ => []
  | (k, w) :: rest, n => if k = n then eraseA rest n else (k, w) :: eraseA rest n

/-- strings.Split(tag, ",").  Split of the empty string is [""]. -/
def splitCommaAux : List Char → List Char → List String
  | [], acc => [String.mk acc.reverse]
  | c :: cs, acc =>
    if c = ',' then String.mk acc.reverse :: splitCommaAux cs []
    else splitCommaAux cs (c :: acc)

/-- strings.Split(tag, ","). -/
def splitComma (s : String) : List String := splitCommaAux s.data []

/-- The mutable state of compileStructSpec: the depth map and the
structSpec under construction (ss.m and ss.l). -/
structure CState where
  depth : List (String × Nat)
  m : List (String × fieldSpec)
  l : List fieldSpec
deriving DecidableEq, Repr

/-- The shadowing switch of compileStructSpec (scan.go:261-284) for one
named candidate field: nm is the resolved name, pre the index path of
the enclosing struct (so len(pre) is the nesting depth), i the field's
position.  At equal depth the name is deleted from the map and every
list entry carrying it is removed; at strictly shallower depth the new
entry is written to the map and appended to the list (the old list
entry, if any, is not removed); at strictly deeper depth nothing
happens. -/
def procName (nm : String) (i : Nat) (pre : List Nat) (st : CState) : CState :=
  let d := (lookupA st.depth nm).getD (2 ^ 30)
  if pre.length = d then
    { st with m := eraseA st.m nm, l := st.l.filter (fun fs => fs.name != nm) }
  else if pre.length < d then
    { depth := insertA st.depth nm pre.length,
      m := insertA st.m nm ⟨nm, pre ++ [i]⟩,
      l := st.l ++ [⟨nm, pre ++ [i]⟩] }
  else st

mutual
/-- compileStructSpec (scan.go:229-287): traverse the declared fields
in order, depth-first through embedded (anonymous) struct fields,
threading the depth map and the spec under construction.  none models
the unknown-field-flag panic. -/
def compileFields : List GoFieldV → Nat → List Nat → CState → Option CState
  | [], _, _, st => some st
  | f :: rest, i, pre, st =>
    match compileField f i pre st with
    | none => none
    | some st' => compileFields rest (i + 1) pre st'

/-- One field of the traversal: unexported fields are ignored,
anonymous struct fields are recursed into (anonymous fields of any
other kind are skipped), and otherwise the redis tag is processed: a
leading "-" excludes the field, a non-empty first token renames it, and
any further token is an unknown flag (panic). -/
def compileField : GoFieldV → Nat → List Nat → CState → Option CState
  | .mk nm tg ex anon v, i, pre, st =>
    if !ex then some st
    else if anon then
      match v with
      | .vStruct fs => compileFields fs 0 (pre ++ [i]) st
      | _ => some st
    else
      match splitComma tg with
      | [] => some st
      | p0 :: rest =>
        if p0 = "-" then some st
        else if rest.isEmpty then
          some (procName (if 0 < p0.length then p0 else nm) i pre st)
        else none
end

/-- structSpecForType (scan.go:295-315) on a destination value's type:
compile from an empty depth map and spec.  The process-wide cache
memoizes this pure function (racing compilations converge because the
function is deterministic) and is not modelled separately.  none models
a compileStructSpec panic: an unknown field flag, or t.NumField() on a
non-struct kind. -/
def structSpecOf : GoVal → Option structSpec
  | .vStruct fs =>
    match compileFields fs 0 [] ⟨[], [], []⟩ with
    | some st => some ⟨st.m, st.l⟩
    | none => none
  | _ => none

/-- The value of a field. -/
def fieldVal : GoFieldV → GoVal
  | .mk _ _ _ _ v => v

/-- reflect's FieldByIndex read: follow an index path into nested
structs; none models the fault on an invalid path or non-struct level. -/
def getPath : GoVal → List Nat → Option GoVal
  | v, [] => some v
  | v, i :: p =>
    match v with
    | .vStruct fs =>
      match fs[i]? with
      | some f => getPath (fieldVal f) p
      | none => none
    | _ => none

/-- Writing through FieldByIndex: replace the value at an index path. -/
def setPath : GoVal → List Nat → GoVal → Option GoVal
  | _, [], x => some x
  | v, i :: p, x =>
    match v with
    | .vStruct fs =>
      match fs[i]? with
      | some (.mk nm tg ex an fv) =>
        match setPath fv p x with
        | some fv' => some (.vStruct (fs.set i (.mk nm tg ex an fv')))
        | none => none
      | none => none
    | _ => none

mutual
/-- The zero value of the same type (a freshly zeroed destination). -/
def zeroVal : GoVal → GoVal
  | .vInt k _ => .vInt k 0
  | .vUint k _ => .vUint k 0
  | .vBool _ => .vBool false
  | .vString _ => .vString ""
  | .vBytes _ => .vBytes ""
  | .vList _ => .vList []
  | .vAny _ => .vAny none
  | .vStruct fs => .vStruct (zeroFields fs)
  | .vOther => .vOther

/-- Zero values of a field list. -/
def zeroFields : List GoFieldV → List GoFieldV
  | [] => []
  | f :: rest => zeroField f :: zeroFields rest

/-- The zero value of a field. -/
def zeroField : GoFieldV → GoFieldV
  | .mk nm tg ex an v => .mk nm tg ex an (zeroVal v)
end

/-- The pair loop of ScanStruct (scan.go:338-362): each pair is a
[]byte name and a value; unknown names are skipped; known names fetch
the field, convert the value into it through `convertField`, write it
back, and stop at the first conversion failure. -/
def scanStructLoop (ss : structSpec) : GoVal → List Dyn → Option (GoVal × Option ConvErr)
  | w, [] => some (w, none)
  | w, [_] => some (w, none)
  | w, k :: val :: rest =>
    match k with
    | .dynBytes name =>
      match lookupA ss.m name with
      | none => scanStructLoop ss w rest
      | some fs =>
        match getPath w fs.index with
        | none => none
        | some f =>
          match convertField f val with
          | (f', none) =>
            match setPath w fs.index f' with
            | none => none
            | some w' => scanStructLoop ss w' rest
          | (f', some e) =>
            match setPath w fs.index f' with
            | none => none
            | some w' => some (w', some e)
    | _ => some (w, some .errKeyNotBulk)

/-- A ScanStruct / AppendStruct destination argument: the nil
interface, a nil pointer, a non-pointer value, or a pointer to a
value. -/
inductive SSDest where
  | nilIface
  | nilPtr
  | nonPtr (v : GoVal)
  | ptr (v : GoVal)

/-- ScanStruct (scan.go:326-364).  none models a panic.  Note the
struct spec is compiled before the even-length check, and that a
pointer to a non-struct value reaches compileStructSpec, whose
t.NumField() call panics rather than returning an error. -/
def ScanStruct (src : List Dyn) (dest : SSDest) : Option (SSDest × Option ConvErr) :=
  match dest with
  | .nilIface => some (dest, some .errInvalidDest)
  | .nilPtr => some (dest, some .errInvalidDest)
  | .nonPtr _ => some (dest, some .errInvalidDest)
  | .ptr v =>
    match structSpecOf v with
    | none => none
    | some ss =>
      if src.length % 2 ≠ 0 then some (dest, some .errOddLength)
      else
        match scanStructLoop ss v src with
        | none => none
        | some (w, e) => some (.ptr w, e)

/-- reflect.Value.Interface() of a field value, as the type switches of
scan.go observe it: an Int64 cell surfaces as int64, string, []byte and
[]interface{} as themselves, an interface cell as its contents, and
every other kind (int, int8..int32, uint*, bool, structs, ...) as a
value that none of the switch cases match. -/
def toDyn : GoVal → Dyn
  | .vInt .i64 n => .dynInt n
  | .vString s => .dynStr s
  | .vBytes s => .dynBytes s
  | .vList xs => .dynList xs
  | .vAny (some d) => d
  | .vAny none => .dynNull
  | v => .dynGo v

/-- The field loop of AppendStruct (scan.go:389-392): append the
resolved name (a Go string) and the field's Interface() value for every
compiled field in order. -/
def appendLoop (v : GoVal) : List Dyn → List fieldSpec → Option (List Dyn)
  | args, [] => some args
  | args, fs :: rest =>
    match getPath v fs.index with
    | some fv => appendLoop v (args ++ [.dynStr fs.name, toDyn fv]) rest
    | none => none

/-- AppendStruct (scan.go:377-394).  none models a panic. -/
def AppendStruct (args : List Dyn) (src : SSDest) : Option (Except ConvErr (List Dyn)) :=
  match src with
  | .nilPtr => some (.error .errAppendNil)
  | .nilIface => some (.error .errAppendNotStruct)
  | .nonPtr v | .ptr v =>
    match v with
    | .vStruct _ =>
      match structSpecOf v with
      | none => none
      | some ss =>
        match appendLoop v args ss.l with
        | some r => some (.ok r)
        | none => none
    | _ => some (.error .errAppendNotStruct)

/-- FlattenStruct (scan.go:398-404): AppendStruct, panicking on error. -/
def FlattenStruct (args : List Dyn) (src : SSDest) : Option (List Dyn) :=
  match AppendStruct args src with
  | some (.ok r) => some r
  | _ => none

/-- One traversal candidate of compileStructSpec: resolved name, the
enclosing index path (whose length is the nesting depth), and the
field's position within its struct. -/
structure Cand where
  name : String
  pre : List Nat
  i : Nat
deriving DecidableEq, Repr

/-- The candidate's full FieldByIndex path. -/
def Cand.path (c : Cand) : List Nat := c.pre ++ [c.i]

/-- The fieldSpec the candidate would contribute. -/
def Cand.toFS (c : Cand) : fieldSpec := ⟨c.name, c.path⟩

/-- Processing one candidate is exactly procName. -/
def candStep (st : CState) (c : Cand) : CState := procName c.name c.i c.pre st

mutual
/-- The candidate trace of compileStructSpec's traversal: the resolved
names of the exported, non-anonymous, non-excluded fields in traversal
order (none models the unknown-flag panic).  compileFields is proved
below to equal folding procName over this trace. -/
def candsFields : List GoFieldV → Nat → List Nat → Option (List Cand)
  | [], _, _ => some []
  | f :: rest, i, pre =>
    match candsField f i pre with
    | none => none
    | some cs1 =>
      match candsFields rest (i + 1) pre with
      | none => none
      | some cs2 => some (cs1 ++ cs2)

/-- Candidates contributed by one field. -/
def candsField : GoFieldV → Nat → List Nat → Option (List Cand)
  | .mk nm tg ex anon v, i, pre =>
    if !ex then some []
    else if anon then
      match v with
      | .vStruct fs => candsFields fs 0 (pre ++ [i])
      | _ => some []
    else
      match splitComma tg with
      | [] => some []
      | p0 :: rest =>
        if p0 = "-" then some []
        else if rest.isEmpty then some [⟨if 0 < p0.length then p0 else nm, pre, i⟩]
        else none
end

/-- The candidate trace of a struct value's type. -/
def candsOf : GoVal → Option (List Cand)
  | .vStruct fs => candsFields fs 0 []
  | _ => none

theorem lookupA_insertA_self {α : Type} :
    ∀ (xs : List (String × α)) (k : String) (v : α), lookupA (insertA xs k v) k = some v
  | [], k, v => by simp [insertA, lookupA]
  | (k', w) :: rest, k, v => by
    by_cases h : k' = k
    · simp [insertA, h, lookupA]
    · simp [insertA, h, lookupA, lookupA_insertA_self rest k v]

theorem lookupA_insertA_ne {α : Type} :
    ∀ (xs : List (String × α)) (k n : String) (v : α), k ≠ n →
      lookupA (insertA xs k v) n = lookupA xs n
  | [], k, n, v, h => by simp [insertA, lookupA, h]
  | (k', w) :: rest, k, n, v, h => by
    by_cases h' : k' = k
    · subst h'
      simp [insertA, lookupA, h]
    · simp only [insertA, if_neg h', lookupA]
      by_cases h'' : k' = n
      · simp [h'']
      · simp [h'', lookupA_insertA_ne rest k n v h]

theorem lookupA_eraseA_self {α : Type} :
    ∀ (xs : List (String × α)) (k : String), lookupA (eraseA xs k) k = none
  | [], k => by simp [eraseA, lookupA]
  | (k', w) :: rest, k => by
    by_cases h : k' = k
    · simp [eraseA, h, lookupA_eraseA_self rest k]
    · simp [eraseA, h, lookupA, lookupA_eraseA_self rest k]

theorem lookupA_eraseA_ne {α : Type} :
    ∀ (xs : List (String × α)) (k n : String), k ≠ n →
      lookupA (eraseA xs k) n = lookupA xs n
  | [], k, n, h => by simp [eraseA]
  | (k', w) :: rest, k, n, h => by
    by_cases h' : k' = k
    · subst h'
      rw [show eraseA ((k', w) :: rest) k' = eraseA rest k' from by simp [eraseA]]
      rw [lookupA_eraseA_ne rest k' n h]
      simp [lookupA, h]
    · rw [show eraseA ((k', w) :: rest) k = (k', w) :: eraseA rest k from by simp [eraseA, h']]
      by_cases h'' : k' = n
      · simp [lookupA, h'']
      · simp [lookupA, h'', lookupA_eraseA_ne rest k n h]

theorem list_set_self {α : Type} :
    ∀ (l : List α) (i : Nat) (a : α), l[i]? = some a → l.set i a = l
  | [], i, a, h => by simp at h
  | x :: xs, 0, a, h => by
    simp at h
    simp [List.set, h]
  | x :: xs, i + 1, a, h => by
    simp at h
    simp [List.set, list_set_self xs i a h]

/-- Writing back the value just read leaves the struct unchanged. -/
theorem setPath_getPath_self :
    ∀ (w : GoVal) (p : List Nat) (f : GoVal), getPath w p = some f → setPath w p f = some w
  | w, [], f, h => by
    simp [getPath] at h
    simp [setPath, h]
  | w, i :: p, f, h => by
    cases w with
    | vStruct fs =>
      simp only [getPath] at h
      cases hfi : fs[i]? with
      | none => rw [hfi] at h; cases h
      | some g =>
        rw [hfi] at h
        cases g with
        | mk nm tg ex an fv =>
          have ih := setPath_getPath_self fv p f (by simpa [fieldVal] using h)
          simp [setPath, hfi, ih, list_set_self fs i _ hfi]
    | vInt k n => simp [getPath] at h
    | vUint k n => simp [getPath] at h
    | vBool b => simp [getPath] at h
    | vString s => simp [getPath] at h
    | vBytes s => simp [getPath] at h
    | vList xs => simp [getPath] at h
    | vAny o => simp [getPath] at h
    | vOther => simp [getPath] at h

/-- The scan loop over an all-null source changes nothing. -/
theorem scanLoop_nulls :
    ∀ dest : List Dest, scanLoop dest (List.replicate dest.length .dynNull) = (dest, none)
  | [] => rfl
  | d :: ds => by
    simp only [List.length_cons, List.replicate, scanLoop]
    rw [show convertAssign d .dynNull = (d, none) from rfl]
    simp [scanLoop_nulls ds]

/-- Example: embedded struct Inner { Name string } with Name == "a". -/
def innerNameA : GoVal := .vStruct [.mk "Name" "" true false (.vString "a")]

/-- Example: struct { Inner; Name string } with the embedded field
declared first and the outer Name == "b". -/
def outerShadow : GoVal :=
  .vStruct [.mk "Inner" "" true true innerNameA, .mk "Name" "" true false (.vString "b")]

/-- Example: struct { A int }. -/
def structA : GoVal := .vStruct [.mk "A" "" true false (.vInt .iInt 0)]

/-- Example: struct { Count int } with Count == 5. -/
def structCount : GoVal := .vStruct [.mk "Count" "" true false (.vInt .iInt 5)]

/-- C4: converting a Null source returns no error and leaves the
destination completely unmodified, in the scalar conversion underlying
the positional scan, in the struct-scan field conversion, in a whole
positional scan over null values, and in a struct-scan pair whose value
is null. -/
theorem c4_null_skip :
    (∀ d : Dest, convertAssign d .dynNull = (d, none)) ∧
    (∀ f : GoVal, convertField f .dynNull = (f, none)) ∧
    (∀ dest : List Dest,
      Scan (List.replicate dest.length .dynNull) dest = ⟨some [], dest, none⟩) ∧
    (∀ (ss : structSpec) (w : GoVal) (name : String) (fs : fieldSpec) (f : GoVal),
      lookupA ss.m name = some fs → getPath w fs.index = some f →
      scanStructLoop ss w [.dynBytes name, .dynNull] = some (w, none)) := by
  refine ⟨fun d => rfl, fun f => rfl, ?_, ?_⟩
  · intro dest
    have hlen : (List.replicate dest.length Dyn.dynNull).length = dest.length := by simp
    have hns : ¬(List.replicate dest.length Dyn.dynNull).length < dest.length := by omega
    simp only [Scan, hns, if_false, scanLoop_nulls dest, hlen]
    simp
  · intro ss w name fs f hm hg
    simp only [scanStructLoop, hm, hg]
    rw [show convertField f .dynNull = (f, none) from rfl]
    simp [setPath_getPath_self w fs.index f hg, scanStructLoop]

theorem c4_null_skip_witness :
    (lookupA (⟨[("A", ⟨"A", [0]⟩)], [⟨"A", [0]⟩]⟩ : structSpec).m "A" = some ⟨"A", [0]⟩ ∧
        getPath structA [0] = some (.vInt .iInt 0)) ∧
      scanStructLoop ⟨[("A", ⟨"A", [0]⟩)], [⟨"A", [0]⟩]⟩ structA
          [.dynBytes "A", .dynNull] = some (structA, none) := by
  refine ⟨⟨by decide, rfl⟩, ?_⟩
  exact c4_null_skip.2.2.2 ⟨[("A", ⟨"A", [0]⟩)], [⟨"A", [0]⟩]⟩ structA "A" ⟨"A", [0]⟩
    (.vInt .iInt 0) (by decide) rfl

/-- C5 counterexample: in the struct scan a protocol-level Error value
paired with a matched field name does not propagate as the failure
itself: the inner value switch of ScanStruct has no Error case, so the
binding fails with the generic cannot-convert error instead. -/
theorem c5_counterexample :
    ScanStruct [.dynBytes "A", .dynErr "boom"] (.ptr structA) =
        some (.ptr structA, some .errCannotConvert) ∧
      ConvErr.errCannotConvert ≠ ConvErr.protoError "boom" := by
  exact ⟨rfl, by decide⟩

/-- C5 (amended): in the positional scan an Error source propagates as
the binding failure itself, for every destination; in the struct scan
an Error value for a matched field fails with the cannot-convert error
rather than the Error itself. -/
theorem c5_amended_error_propagation :
    (∀ (d : Dest) (m : String), convertAssign d (.dynErr m) = (d, some (.protoError m))) ∧
    (∀ (f : GoVal) (m : String), convertField f (.dynErr m) = (f, some .errCannotConvert)) :=
  ⟨fun d m => rfl, fun f m => rfl⟩

/-- C7 counterexample: ScanStruct with a pointer to a non-struct value
(here an int) does not return an InvalidDestination error: it reaches
compileStructSpec, whose t.NumField() call panics (modelled as none). -/
theorem c7_counterexample :
    ScanStruct [] (.ptr (.vInt .iInt 0)) = none := rfl

/-- C7 (amended): a nil or non-pointer destination makes ScanStruct
return the invalid-destination error with the destination unmodified,
for every source sequence; a pointer to a non-struct value is not
reported as an error but makes the call panic. -/
theorem c7_amended_invalid_dest (src : List Dyn) :
    ScanStruct src .nilIface = some (.nilIface, some .errInvalidDest) ∧
    ScanStruct src .nilPtr = some (.nilPtr, some .errInvalidDest) ∧
    (∀ v, ScanStruct src (.nonPtr v) = some (.nonPtr v, some .errInvalidDest)) ∧
    (∀ v, (∀ fs, v ≠ .vStruct fs) → ScanStruct src (.ptr v) = none) := by
  refine ⟨rfl, rfl, fun v => rfl, fun v hv => ?_⟩
  cases v with
  | vStruct fs => exact absurd rfl (hv fs)
  | vInt k n => rfl
  | vUint k n => rfl
  | vBool b => rfl
  | vString s => rfl
  | vBytes s => rfl
  | vList xs => rfl
  | vAny o => rfl
  | vOther => rfl

theorem c7_amended_invalid_dest_witness :
    (∀ fs, GoVal.vBool true ≠ .vStruct fs) ∧
      ScanStruct [] (.ptr (.vBool true)) = none :=
  ⟨fun fs h => GoVal.noConfusion h,
    (c7_amended_invalid_dest []).2.2.2 (.vBool true) (fun fs h => GoVal.noConfusion h)⟩

/-- C2 counterexample: for struct { Inner; Name string } with embedded
Inner struct { Name string }, the compiled ordered list retains the
stale deeper "Name" entry alongside the shallower entry that replaced
it in the map: the list holds two entries sharing one resolved name
while the map holds a single entry, so the ordered list and the mapping
do not contain the same set of entries. -/
theorem c2_counterexample :
    structSpecOf outerShadow =
        some ⟨[("Name", ⟨"Name", [1]⟩)], [⟨"Name", [0, 0]⟩, ⟨"Name", [1]⟩]⟩ ∧
      ¬(([⟨"Name", [0, 0]⟩, ⟨"Name", [1]⟩] : List fieldSpec).map fieldSpec.name).Nodup := by
  exact ⟨by decide, by decide⟩

/-- C3 counterexample: AppendStruct appends field names as Go strings
while ScanStruct requires []byte keys, so the direct composition of the
two fails at the first key with the key-not-bulk error and reproduces
no field at all. -/
theorem c3_counterexample :
    AppendStruct [] (.ptr structCount) =
        some (.ok [.dynStr "Count", .dynGo (.vInt .iInt 5)]) ∧
      ScanStruct [.dynStr "Count", .dynGo (.vInt .iInt 5)] (.ptr (zeroVal structCount)) =
        some (.ptr (zeroVal structCount), some .errKeyNotBulk) := ⟨rfl, rfl⟩

mutual
/-- Instrumentation: compiling a field list equals folding the
per-candidate shadowing step over its candidate trace. -/
theorem compileFields_eq_fold :
    ∀ (fs : List GoFieldV) (i : Nat) (pre : List Nat) (st : CState),
      compileFields fs i pre st = (candsFields fs i pre).map (fun cs => cs.foldl candStep st)
  | [], i, pre, st => by simp [compileFields, candsFields]
  | f :: rest, i, pre, st => by
    rw [compileFields, candsFields, compileField_eq_fold f i pre st]
    cases h1 : candsField f i pre with
    | none => simp
    | some cs1 =>
      simp only [Option.map_some']
      rw [compileFields_eq_fold rest (i + 1) pre (cs1.foldl candStep st)]
      cases h2 : candsFields rest (i + 1) pre with
      | none => simp
      | some cs2 => simp [List.foldl_append]

/-- Instrumentation: compiling one field equals folding its candidates. -/
theorem compileField_eq_fold :
    ∀ (f : GoFieldV) (i : Nat) (pre : List Nat) (st : CState),
      compileField f i pre st = (candsField f i pre).map (fun cs => cs.foldl candStep st)
  | .mk nm tg ex anon v, i, pre, st => by
    cases ex with
    | false => simp [compileField, candsField]
    | true =>
      cases anon with
      | true =>
        cases v with
        | vStruct fs =>
          simp [compileField, candsField, compileFields_eq_fold fs 0 (pre ++ [i]) st]
        | vInt k n => simp [compileField, candsField]
        | vUint k n => simp [compileField, candsField]
        | vBool b => simp [compileField, candsField]
        | vString s => simp [compileField, candsField]
        | vBytes s => simp [compileField, candsField]
        | vList xs => simp [compileField, candsField]
        | vAny o => simp [compileField, candsField]
        | vOther => simp [compileField, candsField]
      | false =>
        cases hsc : splitComma tg with
        | nil => simp [compileField, candsField, hsc]
        | cons p0 rest =>
          by_cases h0 : p0 = "-"
          · simp [compileField, candsField, hsc, h0]
          · by_cases hr : rest.isEmpty
            · simp [compileField, candsField, hsc, h0, hr, candStep]
            · simp [compileField, candsField, hsc, h0, hr]
end

/-- Invariant relating the map and the list during compilation: map
entries carry their key as resolved name and appear in the list, and
every list entry's name is a key of the map. -/
def specInv (st : CState) : Prop :=
  (∀ n fs, lookupA st.m n = some fs → fs.name = n ∧ fs ∈ st.l) ∧
  (∀ fs, fs ∈ st.l → ∃ fs', lookupA st.m fs.name = some fs')

theorem procName_specInv (nm : String) (i : Nat) (pre : List Nat) (st : CState)
    (h : specInv st) : specInv (procName nm i pre st) := by
  by_cases h1 : pre.length = (lookupA st.depth nm).getD (2 ^ 30)
  · simp only [procName, if_pos h1]
    constructor
    · intro n fs hl
      by_cases hn : n = nm
      · subst hn
        rw [lookupA_eraseA_self] at hl
        cases hl
      · rw [lookupA_eraseA_ne st.m nm n (Ne.symm hn)] at hl
        obtain ⟨hname, hmem⟩ := h.1 n fs hl
        refine ⟨hname, List.mem_filter.mpr ⟨hmem, ?_⟩⟩
        simp [hname, hn]
    · intro fs hf
      obtain ⟨hmem, hbne⟩ := List.mem_filter.mp hf
      have hne : fs.name ≠ nm := by simpa using hbne
      obtain ⟨fs', hfs'⟩ := h.2 fs hmem
      exact ⟨fs', by rw [lookupA_eraseA_ne st.m nm fs.name (Ne.symm hne)]; exact hfs'⟩
  · by_cases h2 : pre.length < (lookupA st.depth nm).getD (2 ^ 30)
    · simp only [procName, if_neg h1, if_pos h2]
      constructor
      · intro n fs hl
        by_cases hn : nm = n
        · subst hn
          rw [lookupA_insertA_self] at hl
          cases hl
          exact ⟨rfl, by simp⟩
        · rw [lookupA_insertA_ne st.m nm n _ hn] at hl
          obtain ⟨hname, hmem⟩ := h.1 n fs hl
          exact ⟨hname, by simp [hmem]⟩
      · intro fs hf
        rcases List.mem_append.mp hf with hmem | hnew
        · by_cases hn : fs.name = nm
          · exact ⟨⟨nm, pre ++ [i]⟩, by rw [hn, lookupA_insertA_self]⟩
          · obtain ⟨fs', hfs'⟩ := h.2 fs hmem
            exact ⟨fs', by rw [lookupA_insertA_ne st.m nm fs.name _ (Ne.symm hn)]; exact hfs'⟩
        · have : fs = ⟨nm, pre ++ [i]⟩ := by simpa using hnew
          subst this
          exact ⟨⟨nm, pre ++ [i]⟩, lookupA_insertA_self st.m nm _⟩
    · simp only [procName, if_neg h1, if_neg h2]
      exact h

/-- Any property preserved by the per-candidate step holds after the
whole fold. -/
theorem foldl_candStep_inv (P : CState → Prop)
    (hstep : ∀ st c, P st → P (candStep st c)) :
    ∀ (cs : List Cand) (st : CState), P st → P (cs.foldl candStep st)
  | [], _, h => h
  | c :: cs, st, h => foldl_candStep_inv P hstep cs (candStep st c) (hstep st c h)

/-- A compiled spec is the fold of the candidate trace over the empty
state. -/
theorem structSpecOf_fold (v : GoVal) (ss : structSpec) (h : structSpecOf v = some ss) :
    ∃ cs, candsOf v = some cs ∧
      ss.m = (cs.foldl candStep ⟨[], [], []⟩).m ∧
      ss.l = (cs.foldl candStep ⟨[], [], []⟩).l := by
  cases v with
  | vStruct fs =>
    simp only [structSpecOf] at h
    rw [compileFields_eq_fold fs 0 [] ⟨[], [], []⟩] at h
    cases hc : candsFields fs 0 [] with
    | none => rw [hc] at h; cases h
    | some cs =>
      rw [hc] at h
      simp only [Option.map_some'] at h
      cases h
      exact ⟨cs, by simp [candsOf, hc], rfl, rfl⟩
  | vInt k n => cases h
  | vUint k n => cases h
  | vBool b => cases h
  | vString s => cases h
  | vBytes s => cases h
  | vList xs => cases h
  | vAny o => cases h
  | vOther => cases h

/-- The compiled spec's map/list relationship, for reuse below. -/
theorem structSpecOf_specInv (v : GoVal) (ss : structSpec)
    (h : structSpecOf v = some ss) :
    (∀ n fs, lookupA ss.m n = some fs → fs.name = n ∧ fs ∈ ss.l) ∧
    (∀ fs, fs ∈ ss.l → ∃ fs', lookupA ss.m fs.name = some fs') := by
  obtain ⟨cs, _, hm, hl⟩ := structSpecOf_fold v ss h
  have hinv : specInv (cs.foldl candStep ⟨[], [], []⟩) :=
    foldl_candStep_inv specInv (fun st c hst => procName_specInv c.name c.i c.pre st hst) cs
      ⟨[], [], []⟩
      ⟨fun n fs hl' => by simp [lookupA] at hl', fun fs hf => by simp at hf⟩
  rw [hm, hl]
  exact hinv

/-- C2 (amended): for every struct type, every entry of the compiled
name-to-fieldSpec mapping is keyed by its field's resolved name and
appears in the ordered list, and every name occurring in the ordered
list is a key of the mapping; the ordered list may additionally retain
stale same-named entries left behind when a strictly shallower field
replaced a deeper one in the map, so the two need not contain the same
set of entries. -/
theorem c2_amended_spec_invariant (v : GoVal) (ss : structSpec)
    (h : structSpecOf v = some ss) :
    (∀ n fs, lookupA ss.m n = some fs → fs.name = n ∧ fs ∈ ss.l) ∧
    (∀ fs, fs ∈ ss.l → ∃ fs', lookupA ss.m fs.name = some fs') :=
  structSpecOf_specInv v ss h

theorem c2_amended_spec_invariant_witness :
    structSpecOf structCount = some ⟨[("Count", ⟨"Count", [0]⟩)], [⟨"Count", [0]⟩]⟩ ∧
      ∃ fs', lookupA [("Count", (⟨"Count", [0]⟩ : fieldSpec))] "Count" = some fs' := by
  have hs : structSpecOf structCount =
      some ⟨[("Count", ⟨"Count", [0]⟩)], [⟨"Count", [0]⟩]⟩ := by decide
  refine ⟨hs, ?_⟩
  exact (c2_amended_spec_invariant structCount _ hs).2 ⟨"Count", [0]⟩ (by decide)

/-- The effect of one same-named candidate on one name's recorded depth
and map entry (the projection of procName to a single key): at equal
depth the entry is deleted, at strictly shallower depth it is replaced,
at strictly deeper depth nothing changes. -/
def projStep (st : Option Nat × Option fieldSpec) (c : Cand) :
    Option Nat × Option fieldSpec :=
  if c.pre.length = st.1.getD (2 ^ 30) then (st.1, none)
  else if c.pre.length < st.1.getD (2 ^ 30) then (some c.pre.length, some c.toFS)
  else st

theorem candStep_proj (st : CState) (c : Cand) (n : String) :
    (lookupA (candStep st c).depth n, lookupA (candStep st c).m n) =
      if c.name = n then projStep (lookupA st.depth n, lookupA st.m n) c
      else (lookupA st.depth n, lookupA st.m n) := by
  have hproj1 : c.pre.length = (lookupA st.depth c.name, lookupA st.m c.name).1.getD (2 ^ 30) ↔
      c.pre.length = (lookupA st.depth c.name).getD (2 ^ 30) := Iff.rfl
  by_cases hn : c.name = n
  · subst hn
    rw [if_pos rfl]
    by_cases h1 : c.pre.length = (lookupA st.depth c.name).getD (2 ^ 30)
    · have e : projStep (lookupA st.depth c.name, lookupA st.m c.name) c =
          (lookupA st.depth c.name, none) := by
        unfold projStep
        rw [if_pos (hproj1.mpr h1)]
      rw [e]
      simp only [candStep, procName, if_pos h1]
      rw [lookupA_eraseA_self]
    · by_cases h2 : c.pre.length < (lookupA st.depth c.name).getD (2 ^ 30)
      · have e : projStep (lookupA st.depth c.name, lookupA st.m c.name) c =
            (some c.pre.length, some c.toFS) := by
          unfold projStep
          rw [if_neg (fun hx => h1 (hproj1.mp hx)), if_pos h2]
        rw [e]
        simp only [candStep, procName, if_neg h1, if_pos h2]
        rw [lookupA_insertA_self, lookupA_insertA_self]
        rfl
      · have e : projStep (lookupA st.depth c.name, lookupA st.m c.name) c =
            (lookupA st.depth c.name, lookupA st.m c.name) := by
          unfold projStep
          rw [if_neg (fun hx => h1 (hproj1.mp hx)), if_neg h2]
        rw [e]
        simp only [candStep, procName, if_neg h1, if_neg h2]
  · rw [if_neg hn]
    by_cases h1 : c.pre.length = (lookupA st.depth c.name).getD (2 ^ 30)
    · simp only [candStep, procName, if_pos h1]
      rw [lookupA_eraseA_ne st.m c.name n hn]
    · by_cases h2 : c.pre.length < (lookupA st.depth c.name).getD (2 ^ 30)
      · simp only [candStep, procName, if_neg h1, if_pos h2]
        rw [lookupA_insertA_ne st.depth c.name n c.pre.length hn,
          lookupA_insertA_ne st.m c.name n ⟨c.name, c.pre ++ [c.i]⟩ hn]
      · simp only [candStep, procName, if_neg h1, if_neg h2]

/-- Folding the candidates projects, at one name, to folding the
same-named candidates through projStep. -/
theorem foldl_candStep_proj :
    ∀ (cs : List Cand) (st : CState) (n : String),
      (lookupA (cs.foldl candStep st).depth n, lookupA (cs.foldl candStep st).m n) =
        (cs.filter (fun c => c.name == n)).foldl projStep
          (lookupA st.depth n, lookupA st.m n)
  | [], st, n => by simp
  | c :: cs, st, n => by
    simp only [List.foldl_cons, List.filter_cons]
    by_cases hn : c.name = n
    · rw [foldl_candStep_proj cs (candStep st c) n, candStep_proj st c n, if_pos hn]
      simp [hn]
    · rw [foldl_candStep_proj cs (candStep st c) n, candStep_proj st c n, if_neg hn]
      simp [hn]

/-- Characterization of the projected state after a run of same-named
candidates: the recorded depth is the minimum depth seen, and the map
entry survives exactly when that minimum was attained once, in which
case it is the attaining candidate's entry. -/
def projOK (seen : List Cand) (st : Option Nat × Option fieldSpec) : Prop :=
  match seen with
  | [] => st = (none, none)
  | _ :: _ => ∃ mp, st.1 = some mp ∧ (∀ c ∈ seen, mp ≤ c.pre.length) ∧
      (∃ c ∈ seen, c.pre.length = mp) ∧
      ((2 ≤ (seen.filter (fun c => c.pre.length == mp)).length ∧ st.2 = none) ∨
        (∃ c, seen.filter (fun c => c.pre.length == mp) = [c] ∧ st.2 = some c.toFS))

theorem projOK_ne_nil (seen : List Cand) (st : Option Nat × Option fieldSpec)
    (hne : seen ≠ []) (h : projOK seen st) :
    ∃ mp, st.1 = some mp ∧ (∀ c ∈ seen, mp ≤ c.pre.length) ∧
      (∃ c ∈ seen, c.pre.length = mp) ∧
      ((2 ≤ (seen.filter (fun c => c.pre.length == mp)).length ∧ st.2 = none) ∨
        (∃ c, seen.filter (fun c => c.pre.length == mp) = [c] ∧ st.2 = some c.toFS)) := by
  cases seen with
  | nil => exact absurd rfl hne
  | cons c0 rest => exact h

theorem projOK_step (seen : List Cand) (st : Option Nat × Option fieldSpec) (c : Cand)
    (hb : c.pre.length < 2 ^ 30) (h : projOK seen st) :
    projOK (seen ++ [c]) (projStep st c) := by
  cases seen with
  | nil =>
    have hst : st = (none, none) := h
    subst hst
    have e : projStep ((none : Option Nat), (none : Option fieldSpec)) c =
        (some c.pre.length, some c.toFS) := by
      unfold projStep
      rw [if_neg (by simpa using Nat.ne_of_lt hb), if_pos (by simpa using hb)]
    rw [e]
    refine ⟨c.pre.length, rfl, ?_, ⟨c, by simp, rfl⟩, Or.inr ⟨c, by simp, rfl⟩⟩
    intro x hx
    simp at hx
    subst hx
    exact le_refl _
  | cons c0 rest =>
    obtain ⟨mp, hfst, hmin, hatt, hdisj⟩ := h
    have hgetD : st.1.getD (2 ^ 30) = mp := by rw [hfst]; rfl
    rcases Nat.lt_trichotomy c.pre.length mp with hlt | heq | hgt
    · -- strictly shallower: replaces
      have e : projStep st c = (some c.pre.length, some c.toFS) := by
        unfold projStep
        rw [if_neg (by omega), if_pos (by omega)]
      rw [e]
      refine ⟨c.pre.length, rfl, ?_, ⟨c, by simp, rfl⟩, Or.inr ⟨c, ?_, rfl⟩⟩
      · intro x hx
        rcases List.mem_append.mp hx with hx | hx
        · exact le_trans (le_of_lt hlt) (hmin x hx)
        · simp at hx
          subst hx
          exact le_refl _
      · rw [List.filter_append]
        have hl : (c0 :: rest).filter (fun x => x.pre.length == c.pre.length) = [] := by
          rw [List.filter_eq_nil]
          intro x hx
          have := hmin x hx
          simp only [beq_iff_eq]
          omega
        simp [hl]
    · -- equal depth: removed
      have hcount : 1 ≤ ((c0 :: rest).filter (fun x => x.pre.length == mp)).length := by
        obtain ⟨ca, hca, hda⟩ := hatt
        have : ca ∈ (c0 :: rest).filter (fun x => x.pre.length == mp) :=
          List.mem_filter.mpr ⟨hca, by simp [hda]⟩
        have := List.length_pos.mpr (List.ne_nil_of_mem this)
        omega
      have e : projStep st c = (st.1, none) := by
        unfold projStep
        rw [if_pos (by omega)]
      rw [e]
      refine ⟨mp, hfst, ?_, ?_, Or.inl ⟨?_, rfl⟩⟩
      · intro x hx
        rcases List.mem_append.mp hx with hx | hx
        · exact hmin x hx
        · simp at hx
          subst hx
          omega
      · obtain ⟨ca, hca, hda⟩ := hatt
        exact ⟨ca, List.mem_append.mpr (Or.inl hca), hda⟩
      · rw [List.filter_append]
        have : (([c] : List Cand).filter (fun x => x.pre.length == mp)).length = 1 := by
          simp [heq]
        rw [List.length_append]
        omega
    · -- strictly deeper: ignored
      have hstep : projStep st c = st := by
        unfold projStep
        rw [if_neg (by omega), if_neg (by omega)]
      rw [hstep]
      have hcfail : (([c] : List Cand).filter (fun x => x.pre.length == mp)) = [] := by
        simp
        omega
      refine ⟨mp, hfst, ?_, ?_, ?_⟩
      · intro x hx
        rcases List.mem_append.mp hx with hx | hx
        · exact hmin x hx
        · simp at hx
          subst hx
          omega
      · obtain ⟨ca, hca, hda⟩ := hatt
        exact ⟨ca, List.mem_append.mpr (Or.inl hca), hda⟩
      · rw [List.filter_append, hcfail, List.append_nil]
        exact hdisj

theorem projOK_fold_go :
    ∀ (rest seen : List Cand) (st : Option Nat × Option fieldSpec),
      projOK seen st → (∀ c ∈ rest, c.pre.length < 2 ^ 30) →
      projOK (seen ++ rest) (rest.foldl projStep st)
  | [], seen, st, h, _ => by simpa using h
  | c :: rest, seen, st, h, hb => by
    have hstep := projOK_step seen st c (hb c (by simp)) h
    have := projOK_fold_go rest (seen ++ [c]) (projStep st c) hstep
      (fun x hx => hb x (by simp [hx]))
    simpa [List.append_assoc] using this

theorem projOK_fold (cs : List Cand) (hb : ∀ c ∈ cs, c.pre.length < 2 ^ 30) :
    projOK cs (cs.foldl projStep (none, none)) := by
  have := projOK_fold_go cs [] (none, none) rfl hb
  simpa using this

/-- C1: in the compiled spec's name-to-field mapping, duplicate
resolved names arising from embedded sub-structures are resolved by
nesting depth: for every resolved name, if two (or more) fields
carrying that name occur at its minimum depth, the name is absent from
the mapping (neither field is kept); if exactly one field occurs at the
minimum depth — every strictly shallower occurrence having replaced the
previously recorded deeper one and every strictly deeper occurrence
having been ignored — the mapping holds exactly that field. -/
theorem c1_shadowing (v : GoVal) (ss : structSpec) (cs : List Cand) (n : String) (dm : Nat)
    (hss : structSpecOf v = some ss) (hcs : candsOf v = some cs)
    (hb : ∀ c ∈ cs, c.pre.length < 2 ^ 30)
    (hne : cs.filter (fun c => c.name == n) ≠ [])
    (hmin : ∀ c ∈ cs.filter (fun c => c.name == n), dm ≤ c.pre.length) :
    (2 ≤ ((cs.filter (fun c => c.name == n)).filter
        (fun c => c.pre.length == dm)).length →
      lookupA ss.m n = none) ∧
    (((cs.filter (fun c => c.name == n)).filter
        (fun c => c.pre.length == dm)).length = 1 →
      ∃ c ∈ cs.filter (fun c => c.name == n), c.pre.length = dm ∧
        lookupA ss.m n = some c.toFS) := by
  obtain ⟨cs', hcs', hm, _⟩ := structSpecOf_fold v ss hss
  rw [hcs'] at hcs
  injection hcs with hcseq
  subst hcseq
  have hproj := foldl_candStep_proj cs' ⟨[], [], []⟩ n
  have hOK : projOK (cs'.filter (fun c => c.name == n))
      ((cs'.filter (fun c => c.name == n)).foldl projStep (none, none)) :=
    projOK_fold _ (fun c hc => hb c (List.mem_of_mem_filter hc))
  obtain ⟨mp, hfst, hmin', hatt, hdisj⟩ :=
    projOK_ne_nil (cs'.filter (fun c => c.name == n)) _ hne hOK
  have hlook : lookupA ss.m n =
      ((cs'.filter (fun c => c.name == n)).foldl projStep (none, none)).2 := by
    rw [hm]
    have h2 := congrArg Prod.snd hproj
    simpa using h2
  constructor
  · intro h2
    have hnn : (cs'.filter (fun c => c.name == n)).filter
        (fun c => c.pre.length == dm) ≠ [] := by
      intro hnil
      rw [hnil] at h2
      simp at h2
    obtain ⟨ca, hca⟩ := List.exists_mem_of_ne_nil _ hnn
    have hca' := List.mem_filter.mp hca
    have hdmmp : dm = mp := by
      obtain ⟨cb, hcb, hcbd⟩ := hatt
      have ha := hmin cb hcb
      have hb' := hmin' ca hca'.1
      have hcd : ca.pre.length = dm := by simpa using hca'.2
      omega
    subst hdmmp
    rcases hdisj with ⟨_, hnone⟩ | ⟨c, hfil, _⟩
    · rw [hlook, hnone]
    · rw [hfil] at h2
      simp at h2
  · intro h1
    have hnn : (cs'.filter (fun c => c.name == n)).filter
        (fun c => c.pre.length == dm) ≠ [] := by
      intro hnil
      rw [hnil] at h1
      simp at h1
    obtain ⟨ca, hca⟩ := List.exists_mem_of_ne_nil _ hnn
    have hca' := List.mem_filter.mp hca
    have hdmmp : dm = mp := by
      obtain ⟨cb, hcb, hcbd⟩ := hatt
      have ha := hmin cb hcb
      have hb' := hmin' ca hca'.1
      have hcd : ca.pre.length = dm := by simpa using hca'.2
      omega
    subst hdmmp
    rcases hdisj with ⟨hc2, _⟩ | ⟨c, hfil, hsome⟩
    · omega
    · have hcmem : c ∈ (cs'.filter (fun x => x.name == n)).filter
          (fun x => x.pre.length == dm) := by
        rw [hfil]
        simp
      have hc' := List.mem_filter.mp hcmem
      exact ⟨c, hc'.1, by simpa using hc'.2, by rw [hlook, hsome]⟩

/-- Example: embedded struct E { A int } with A == 1. -/
def embedE : GoVal := .vStruct [.mk "A" "" true false (.vInt .iInt 1)]

/-- Example: embedded struct F { A int } with A == 2. -/
def embedF : GoVal := .vStruct [.mk "A" "" true false (.vInt .iInt 2)]

/-- Example: struct { E; F }: two fields named "A" at equal depth 1. -/
def structTie : GoVal :=
  .vStruct [.mk "E" "" true true embedE, .mk "F" "" true true embedF]

theorem c1_shadowing_witness :
    (structSpecOf structTie = some ⟨[], []⟩ ∧
        candsOf structTie = some [⟨"A", [0], 0⟩, ⟨"A", [1], 0⟩]) ∧
      lookupA ([] : List (String × fieldSpec)) "A" = none := by
  refine ⟨⟨by decide, by decide⟩, ?_⟩
  have h := c1_shadowing structTie ⟨[], []⟩ [⟨"A", [0], 0⟩, ⟨"A", [1], 0⟩] "A" 1
    (by decide) (by decide) (by decide) (by decide) (by decide)
  exact h.1 (by decide)

theorem digitVal_digitChar (d : Nat) (h : d < 10) : digitVal (digitChar d) = some d := by
  interval_cases d <;> decide

theorem parseDigitsAux_digits :
    ∀ (ds : List Nat) (acc : Nat), (∀ d ∈ ds, d < 10) →
      parseDigitsAux (ds.map digitChar) acc =
        some (ds.foldl (fun a d => a * 10 + d) acc)
  | [], acc, _ => rfl
  | d :: ds, acc, h => by
    have hd : d < 10 := h d (by simp)
    simp only [List.map_cons, parseDigitsAux, digitVal_digitChar d hd, List.foldl_cons]
    exact parseDigitsAux_digits ds (acc * 10 + d) (fun x hx => h x (by simp [hx]))

theorem natDigits_spec :
    ∀ (fuel n : Nat), n < fuel →
      (∀ d ∈ natDigits fuel n, d < 10) ∧ natDigits fuel n ≠ [] ∧
        ∀ acc, (natDigits fuel n).foldl (fun a d => a * 10 + d) acc =
          acc * 10 ^ (natDigits fuel n).length + n
  | 0, n, h => by omega
  | fuel + 1, n, h => by
    by_cases h10 : n < 10
    · refine ⟨?_, ?_, ?_⟩
      · intro d hd
        simp [natDigits, h10] at hd
        omega
      · simp [natDigits, h10]
      · intro acc
        simp [natDigits, h10]
    · have hnf : n / 10 < fuel := by
        have h1 : n / 10 < n := Nat.div_lt_self (by omega) (by omega)
        omega
      obtain ⟨ih1, ih2, ih3⟩ := natDigits_spec fuel (n / 10) hnf
      have hrw : natDigits (fuel + 1) n = natDigits fuel (n / 10) ++ [n % 10] := by
        simp [natDigits, h10]
      refine ⟨?_, ?_, ?_⟩
      · intro d hd
        rw [hrw] at hd
        rcases List.mem_append.mp hd with hd | hd
        · exact ih1 d hd
        · simp at hd
          omega
      · rw [hrw]
        simp
      · intro acc
        rw [hrw, List.foldl_append, ih3 acc, List.length_append]
        simp only [List.length_singleton, List.foldl_cons, List.foldl_nil]
        rw [pow_succ]
        have := Nat.div_add_mod n 10
        ring_nf
        omega

theorem parseDigits_ne_nil (l : List Char) (h : l ≠ []) :
    parseDigits l = parseDigitsAux l 0 := by
  cases l with
  | nil => exact absurd rfl h
  | cons c cs => rfl

theorem parseDigits_format (n : Nat) :
    parseDigits ((natDigits (n + 1) n).map digitChar) = some n := by
  obtain ⟨h10, hne, hfold⟩ := natDigits_spec (n + 1) n (by omega)
  rw [parseDigits_ne_nil _ (by simpa using hne)]
  rw [parseDigitsAux_digits _ 0 h10, hfold 0]
  simp

theorem digitChar_ne_sign (d : Nat) :
    digitChar d ≠ '-' ∧ digitChar d ≠ '+' := by
  unfold digitChar
  split <;> exact ⟨by decide, by decide⟩

theorem parseUintGo_format (n : Nat) (bits : Nat) (h : n < 2 ^ bits) :
    parseUintGo (formatNat n) bits = (n, none) := by
  have hd : (formatNat n).data = (natDigits (n + 1) n).map digitChar := rfl
  have hrange : ¬(2 ^ bits - 1 < n) := by
    have : 1 ≤ 2 ^ bits := Nat.one_le_two_pow
    omega
  rw [parseUintGo, hd, parseDigits_format n]
  simp [hrange]

theorem parseIntGo_format (n : Int) (bits : Nat) (hb : 1 ≤ bits)
    (h1 : -((2 : Int) ^ (bits - 1)) ≤ n) (h2 : n < (2 : Int) ^ (bits - 1)) :
    parseIntGo (formatInt n) bits = (n, none) := by
  have hpow : (0 : Int) < 2 ^ (bits - 1) := by positivity
  rcases lt_or_le n 0 with hneg | hpos
  · have hd : (formatInt n).data = '-' :: (natDigits (n.natAbs + 1) n.natAbs).map digitChar := by
      rw [formatInt, if_pos hneg]
    have hv : -((n.natAbs : Nat) : Int) = n := by omega
    have e1 : ¬(-((n.natAbs : Nat) : Int) < -((2 : Int) ^ (bits - 1))) := by omega
    have e2 : ¬((2 : Int) ^ (bits - 1) - 1 < -((n.natAbs : Nat) : Int)) := by omega
    have e1' : ¬((2 : Int) ^ (bits - 1) < -n) := by omega
    have e2' : ¬((2 : Int) ^ (bits - 1) - 1 < n) := by omega
    simp only [parseIntGo, hd]
    simp [parseDigits_format n.natAbs, abs_of_nonpos (le_of_lt hneg), e1', e2']
    omega
  · have hd : (formatInt n).data = (natDigits (n.toNat + 1) n.toNat).map digitChar := by
      rw [formatInt, if_neg (not_lt.mpr hpos)]
      rw [show n.natAbs = n.toNat from by omega]
      rfl
    have hv : ((n.toNat : Nat) : Int) = n := Int.toNat_of_nonneg hpos
    have e1 : ¬(((n.toNat : Nat) : Int) < -((2 : Int) ^ (bits - 1))) := by omega
    have e2 : ¬((2 : Int) ^ (bits - 1) - 1 < ((n.toNat : Nat) : Int)) := by omega
    cases hds : (natDigits (n.toNat + 1) n.toNat).map digitChar with
    | nil =>
      exfalso
      obtain ⟨_, hne, _⟩ := natDigits_spec (n.toNat + 1) n.toNat (by omega)
      simp [hne] at hds
    | cons c cs =>
      have hcdig : ∃ d, d < 10 ∧ c = digitChar d := by
        obtain ⟨h10, _, _⟩ := natDigits_spec (n.toNat + 1) n.toNat (by omega)
        cases hnd : natDigits (n.toNat + 1) n.toNat with
        | nil => rw [hnd] at hds; simp at hds
        | cons d ds =>
          rw [hnd] at hds
          simp at hds
          exact ⟨d, h10 d (by simp [hnd]), hds.1.symm⟩
      obtain ⟨d, hd10, hc⟩ := hcdig
      have hsign := digitChar_ne_sign d
      have hc1 : ¬(c = '-') := by rw [hc]; exact hsign.1
      have hc2 : ¬(c = '+') := by rw [hc]; exact hsign.2
      simp only [parseIntGo, hd, hds]
      rw [if_neg hc1, if_neg hc2]
      simp only
      rw [← hds, parseDigits_format n.toNat]
      simp only [hv]
      rw [if_neg (by omega), if_neg (by omega)]
      simp

/-- Modelled from the spec: the external wire encoder (the spec's
section 1 treats encodeCommand and the decoder as given collaborators,
out of scope).  Arguments of a write command reach the server, and come
back in replies, as bulk byte strings: strings and byte slices
byte-for-byte, signed and unsigned integers in base-10 decimal,
booleans as their literal spellings; other argument kinds have no bulk
encoding here. -/
def encodeArg : Dyn → Option Dyn
  | .dynStr s => some (.dynBytes s)
  | .dynBytes s => some (.dynBytes s)
  | .dynInt n => some (.dynBytes (formatInt n))
  | .dynGo (.vInt _ n) => some (.dynBytes (formatInt n))
  | .dynGo (.vUint _ n) => some (.dynBytes (formatNat n))
  | .dynGo (.vBool b) => some (.dynBytes (if b then "true" else "false"))
  | _ => none

/-- The field kinds whose AppendStruct output, encoded to a bulk string
by the wire, scans back to the original value: in-range signed and
unsigned integers, booleans, strings and byte slices. -/
def encDec : GoVal → Bool
  | .vInt k n =>
    decide (-((2 : Int) ^ (width k - 1)) ≤ n ∧ n < (2 : Int) ^ (width k - 1))
  | .vUint k n => decide (n < 2 ^ uwidth k)
  | .vBool _ => true
  | .vString _ => true
  | .vBytes _ => true
  | _ => false

/-- Decoding the encoded Interface() value of a round-trippable field
into a zeroed cell of the same kind restores the original value. -/
theorem encDec_roundtrip (fv : GoVal) (h : encDec fv = true) :
    ∃ bs, encodeArg (toDyn fv) = some (.dynBytes bs) ∧
      convertAssignBytes (zeroVal fv) bs = (fv, none) := by
  cases fv with
  | vInt k n =>
    have hr : -((2 : Int) ^ (width k - 1)) ≤ n ∧ n < (2 : Int) ^ (width k - 1) := by
      simpa [encDec] using h
    have hp := parseIntGo_format n (width k) (width_pos k) hr.1 hr.2
    refine ⟨formatInt n, ?_, ?_⟩
    · cases k <;> rfl
    · simp [zeroVal, convertAssignBytes, hp]
  | vUint k n =>
    have hr : n < 2 ^ uwidth k := by simpa [encDec] using h
    have hp := parseUintGo_format n (uwidth k) hr
    exact ⟨formatNat n, rfl, by simp [zeroVal, convertAssignBytes, hp]⟩
  | vBool b =>
    cases b with
    | false => exact ⟨"false", rfl, rfl⟩
    | true => exact ⟨"true", rfl, rfl⟩
  | vString s => exact ⟨s, rfl, rfl⟩
  | vBytes s => exact ⟨s, rfl, rfl⟩
  | vList xs => simp [encDec] at h
  | vAny o => simp [encDec] at h
  | vStruct fs => simp [encDec] at h
  | vOther => simp [encDec] at h

theorem getPath_append :
    ∀ (v : GoVal) (p q : List Nat),
      getPath v (p ++ q) = (getPath v p).bind (fun w => getPath w q)
  | v, [], q => rfl
  | v, i :: p, q => by
    cases v with
    | vStruct fs =>
      simp only [List.cons_append, getPath]
      cases fs[i]? with
      | some f => exact getPath_append (fieldVal f) p q
      | none => rfl
    | vInt k n => rfl
    | vUint k n => rfl
    | vBool b => rfl
    | vString s => rfl
    | vBytes s => rfl
    | vList xs => rfl
    | vAny o => rfl
    | vOther => rfl

theorem setPath_of_getPath :
    ∀ (w : GoVal) (p : List Nat) (f x : GoVal), getPath w p = some f →
      ∃ w', setPath w p x = some w'
  | w, [], f, x, _ => ⟨x, rfl⟩
  | w, i :: p, f, x, h => by
    cases w with
    | vStruct fs =>
      simp only [getPath] at h
      cases hfi : fs[i]? with
      | none => rw [hfi] at h; cases h
      | some g =>
        rw [hfi] at h
        cases g with
        | mk nm tg ex an fv =>
          obtain ⟨fv', hfv'⟩ := setPath_of_getPath fv p f x (by simpa [fieldVal] using h)
          exact ⟨.vStruct (fs.set i (.mk nm tg ex an fv')), by simp [setPath, hfi, hfv']⟩
    | vInt k n => simp [getPath] at h
    | vUint k n => simp [getPath] at h
    | vBool b => simp [getPath] at h
    | vString s => simp [getPath] at h
    | vBytes s => simp [getPath] at h
    | vList xs => simp [getPath] at h
    | vAny o => simp [getPath] at h
    | vOther => simp [getPath] at h

theorem getPath_setPath_self :
    ∀ (w : GoVal) (p : List Nat) (x w' : GoVal), setPath w p x = some w' →
      getPath w' p = some x
  | w, [], x, w', h => by
    simp only [setPath] at h
    cases h
    rfl
  | w, i :: p, x, w', h => by
    cases w with
    | vStruct fs =>
      simp only [setPath] at h
      cases g : fs[i]? with
      | none => simp [g] at h
      | some gf =>
        have hfi := g
        cases gf with
        | mk nm tg ex an fv =>
          simp only [hfi] at h
          cases hset : setPath fv p x with
          | none => rw [hset] at h; cases h
          | some fv' =>
            rw [hset] at h
            cases h
            have hlen : i < fs.length := by
              by_contra hge
              rw [List.getElem?_eq_none (by omega)] at hfi
              cases hfi
            simp only [getPath, List.getElem?_set_eq_of_lt _ hlen]
            exact getPath_setPath_self fv p x fv' hset
    | vInt k n => simp [setPath] at h
    | vUint k n => simp [setPath] at h
    | vBool b => simp [setPath] at h
    | vString s => simp [setPath] at h
    | vBytes s => simp [setPath] at h
    | vList xs => simp [setPath] at h
    | vAny o => simp [setPath] at h
    | vOther => simp [setPath] at h

theorem getPath_setPath_frame :
    ∀ (p : List Nat) (q : List Nat) (w x w' : GoVal),
      setPath w p x = some w' → (¬p <+: q ∧ ¬q <+: p) → getPath w' q = getPath w q
  | [], q, w, x, w', _, hinc => absurd (List.nil_prefix) hinc.1
  | i :: p, [], w, x, w', _, hinc => absurd (List.nil_prefix) hinc.2
  | i :: p, j :: q, w, x, w', h, hinc => by
    cases w with
    | vStruct fs =>
      simp only [setPath] at h
      cases g : fs[i]? with
      | none => simp [g] at h
      | some gf =>
        have hfi := g
        cases gf with
        | mk nm tg ex an fv =>
          simp only [hfi] at h
          cases hset : setPath fv p x with
          | none => rw [hset] at h; cases h
          | some fv' =>
            rw [hset] at h
            cases h
            by_cases hij : i = j
            · subst hij
              have hlen : i < fs.length := by
                by_contra hge
                rw [List.getElem?_eq_none (by omega)] at hfi
                cases hfi
              have hinc' : ¬p <+: q ∧ ¬q <+: p := by
                constructor
                · intro hp
                  exact hinc.1 (List.cons_prefix_cons.mpr ⟨rfl, hp⟩)
                · intro hp
                  exact hinc.2 (List.cons_prefix_cons.mpr ⟨rfl, hp⟩)
              simp only [getPath, List.getElem?_set_eq_of_lt _ hlen, hfi]
              exact getPath_setPath_frame p q fv x fv' hset hinc'
            · simp only [getPath, List.getElem?_set_ne hij]
    | vInt k n => simp [setPath] at h
    | vUint k n => simp [setPath] at h
    | vBool b => simp [setPath] at h
    | vString s => simp [setPath] at h
    | vBytes s => simp [setPath] at h
    | vList xs => simp [setPath] at h
    | vAny o => simp [setPath] at h
    | vOther => simp [setPath] at h

theorem zeroFields_map : ∀ fs : List GoFieldV, zeroFields fs = fs.map zeroField
  | [] => rfl
  | f :: rest => by simp [zeroFields, zeroFields_map rest]

theorem getPath_zeroVal :
    ∀ (p : List Nat) (v : GoVal), getPath (zeroVal v) p = (getPath v p).map zeroVal
  | [], v => rfl
  | i :: p, v => by
    cases v with
    | vStruct fs =>
      simp only [zeroVal, zeroFields_map, getPath, List.getElem?_map]
      cases fs[i]? with
      | none => rfl
      | some f =>
        cases f with
        | mk nm tg ex an fv =>
          simp only [Option.map_some']
          have : fieldVal (zeroField (.mk nm tg ex an fv)) = zeroVal fv := rfl
          rw [this]
          exact getPath_zeroVal p fv
    | vInt k n => rfl
    | vUint k n => rfl
    | vBool b => rfl
    | vString s => rfl
    | vBytes s => rfl
    | vList xs => rfl
    | vAny o => rfl
    | vOther => rfl

mutual
theorem compileFields_zero :
    ∀ (fs : List GoFieldV) (i : Nat) (pre : List Nat) (st : CState),
      compileFields (zeroFields fs) i pre st = compileFields fs i pre st
  | [], _, _, _ => rfl
  | f :: rest, i, pre, st => by
    simp only [zeroFields, compileFields, compileField_zero f i pre st]
    cases compileField f i pre st with
    | none => rfl
    | some st' => exact compileFields_zero rest (i + 1) pre st'

theorem compileField_zero :
    ∀ (f : GoFieldV) (i : Nat) (pre : List Nat) (st : CState),
      compileField (zeroField f) i pre st = compileField f i pre st
  | .mk nm tg ex anon v, i, pre, st => by
    cases ex with
    | false => rfl
    | true =>
      cases anon with
      | true =>
        cases v with
        | vStruct fs =>
          simp only [zeroField, zeroVal, compileField]
          exact compileFields_zero fs 0 (pre ++ [i]) st
        | vInt k n => rfl
        | vUint k n => rfl
        | vBool b => rfl
        | vString s => rfl
        | vBytes s => rfl
        | vList xs => rfl
        | vAny o => rfl
        | vOther => rfl
      | false => rfl
end

theorem structSpecOf_zero (v : GoVal) : structSpecOf (zeroVal v) = structSpecOf v := by
  cases v with
  | vStruct fs =>
    simp only [zeroVal, structSpecOf, compileFields_zero fs 0 [] ⟨[], [], []⟩]
  | vInt k n => rfl
  | vUint k n => rfl
  | vBool b => rfl
  | vString s => rfl
  | vBytes s => rfl
  | vList xs => rfl
  | vAny o => rfl
  | vOther => rfl

theorem pincomp_of_ne_at (pre : List Nat) (a b : Nat) (ta tb : List Nat) (h : a ≠ b) :
    ¬(pre ++ a :: ta) <+: (pre ++ b :: tb) ∧ ¬(pre ++ b :: tb) <+: (pre ++ a :: ta) := by
  constructor
  · rintro ⟨r, hr⟩
    rw [List.append_assoc] at hr
    have h2 := List.append_cancel_left hr
    simp at h2
    exact h h2.1
  · rintro ⟨r, hr⟩
    rw [List.append_assoc] at hr
    have h2 := List.append_cancel_left hr
    simp at h2
    exact h h2.1.symm

mutual
/-- Shape of the candidate trace: every candidate of a sub-traversal
extends the enclosing path at a position at or after i, and distinct
candidates have prefix-incomparable paths (the traversal recurses only
into anonymous fields, and a candidate field itself is never entered). -/
theorem candsFields_shape :
    ∀ (fs : List GoFieldV) (i : Nat) (pre : List Nat) (cs : List Cand),
      candsFields fs i pre = some cs →
      (∀ c ∈ cs, ∃ k, i ≤ k ∧ ∃ tail, c.path = pre ++ k :: tail) ∧
      cs.Pairwise (fun a b => ¬a.path <+: b.path ∧ ¬b.path <+: a.path)
  | [], i, pre, cs, h => by
    simp only [candsFields] at h
    cases h
    exact ⟨by simp, by simp⟩
  | f :: rest, i, pre, cs, h => by
    simp only [candsFields] at h
    cases h1 : candsField f i pre with
    | none => rw [h1] at h; cases h
    | some cs1 =>
      rw [h1] at h
      cases h2 : candsFields rest (i + 1) pre with
      | none => rw [h2] at h; cases h
      | some cs2 =>
        rw [h2] at h
        cases h
        obtain ⟨hs1, hp1⟩ := candsField_shape f i pre cs1 h1
        obtain ⟨hs2, hp2⟩ := candsFields_shape rest (i + 1) pre cs2 h2
        constructor
        · intro c hc
          rcases List.mem_append.mp hc with hc | hc
          · obtain ⟨tail, ht⟩ := hs1 c hc
            exact ⟨i, le_refl _, tail, ht⟩
          · obtain ⟨k, hk, tail, ht⟩ := hs2 c hc
            exact ⟨k, by omega, tail, ht⟩
        · rw [List.pairwise_append]
          refine ⟨hp1, hp2, ?_⟩
          intro a ha b hb
          obtain ⟨ta, hta⟩ := hs1 a ha
          obtain ⟨k, hk, tb, htb⟩ := hs2 b hb
          rw [hta, htb]
          exact pincomp_of_ne_at pre i k ta tb (by omega)

/-- Shape of one field's candidates: they all extend the enclosing path
at position i, pairwise prefix-incomparable. -/
theorem candsField_shape :
    ∀ (f : GoFieldV) (i : Nat) (pre : List Nat) (cs : List Cand),
      candsField f i pre = some cs →
      (∀ c ∈ cs, ∃ tail, c.path = pre ++ i :: tail) ∧
      cs.Pairwise (fun a b => ¬a.path <+: b.path ∧ ¬b.path <+: a.path)
  | .mk nm tg ex anon v, i, pre, cs, h => by
    cases ex with
    | false =>
      simp [candsField] at h
      subst h
      exact ⟨by simp, by simp⟩
    | true =>
      cases anon with
      | true =>
        cases v with
        | vStruct fs =>
          have h' : candsFields fs 0 (pre ++ [i]) = some cs := by
            simpa [candsField] using h
          obtain ⟨hs, hp⟩ := candsFields_shape fs 0 (pre ++ [i]) cs h'
          refine ⟨?_, hp⟩
          intro c hc
          obtain ⟨k, _, tail, ht⟩ := hs c hc
          exact ⟨k :: tail, by rw [ht]; simp⟩
        | vInt k n => simp [candsField] at h; subst h; exact ⟨by simp, by simp⟩
        | vUint k n => simp [candsField] at h; subst h; exact ⟨by simp, by simp⟩
        | vBool b => simp [candsField] at h; subst h; exact ⟨by simp, by simp⟩
        | vString s => simp [candsField] at h; subst h; exact ⟨by simp, by simp⟩
        | vBytes s => simp [candsField] at h; subst h; exact ⟨by simp, by simp⟩
        | vList xs => simp [candsField] at h; subst h; exact ⟨by simp, by simp⟩
        | vAny o => simp [candsField] at h; subst h; exact ⟨by simp, by simp⟩
        | vOther => simp [candsField] at h; subst h; exact ⟨by simp, by simp⟩
      | false =>
        cases hsc : splitComma tg with
        | nil =>
          simp [candsField, hsc] at h
          subst h
          exact ⟨by simp, by simp⟩
        | cons p0 rest =>
          by_cases h0 : p0 = "-"
          · simp [candsField, hsc, h0] at h
            subst h
            exact ⟨by simp, by simp⟩
          · by_cases hr : rest.isEmpty
            · simp [candsField, hsc, h0, hr] at h
              subst h
              refine ⟨?_, by simp⟩
              intro c hc
              simp at hc
              subst hc
              exact ⟨[], rfl⟩
            · simp [candsField, hsc, h0, hr] at h
end

mutual
/-- Every candidate path of a sub-traversal is a valid FieldByIndex
path in the root value. -/
theorem candsFields_valid :
    ∀ (fs : List GoFieldV) (i : Nat) (pre : List Nat) (cs : List Cand) (root : GoVal)
      (full : List GoFieldV),
      candsFields fs i pre = some cs →
      getPath root pre = some (.vStruct full) → full.drop i = fs →
      ∀ c ∈ cs, ∃ fv, getPath root c.path = some fv
  | [], i, pre, cs, root, full, h, _, _ => by
    simp only [candsFields] at h
    cases h
    intro c hc
    simp at hc
  | f :: rest, i, pre, cs, root, full, h, hg, hd => by
    simp only [candsFields] at h
    cases h1 : candsField f i pre with
    | none => rw [h1] at h; cases h
    | some cs1 =>
      rw [h1] at h
      cases h2 : candsFields rest (i + 1) pre with
      | none => rw [h2] at h; cases h
      | some cs2 =>
        rw [h2] at h
        cases h
        have hfull_i : full[i]? = some f := by
          have hh : (full.drop i)[0]? = full[i + 0]? := List.getElem?_drop full i 0
          rw [hd] at hh
          simpa using hh.symm
        have hdrop' : full.drop (i + 1) = rest := by
          have hh : (full.drop i).drop 1 = full.drop (i + 1) := List.drop_drop 1 i full
          rw [hd] at hh
          simpa using hh.symm
        intro c hc
        rcases List.mem_append.mp hc with hc | hc
        · exact candsField_valid f i pre cs1 root h1 ⟨full, hg, hfull_i⟩ c hc
        · exact candsFields_valid rest (i + 1) pre cs2 root full h2 hg hdrop' c hc

/-- Validity of one field's candidates. -/
theorem candsField_valid :
    ∀ (f : GoFieldV) (i : Nat) (pre : List Nat) (cs : List Cand) (root : GoVal),
      candsField f i pre = some cs →
      (∃ full, getPath root pre = some (.vStruct full) ∧ full[i]? = some f) →
      ∀ c ∈ cs, ∃ fv, getPath root c.path = some fv
  | .mk nm tg ex anon v, i, pre, cs, root, h, hfull => by
    obtain ⟨full, hg, hfi⟩ := hfull
    cases ex with
    | false =>
      simp [candsField] at h
      subst h
      intro c hc
      simp at hc
    | true =>
      cases anon with
      | true =>
        cases v with
        | vStruct fs =>
          have h' : candsFields fs 0 (pre ++ [i]) = some cs := by
            simpa [candsField] using h
          have hg' : getPath root (pre ++ [i]) = some (.vStruct fs) := by
            rw [getPath_append, hg]
            simp [getPath, hfi, fieldVal]
          exact candsFields_valid fs 0 (pre ++ [i]) cs root fs h' hg' (by simp)
        | vInt k n => simp [candsField] at h; subst h; intro c hc; simp at hc
        | vUint k n => simp [candsField] at h; subst h; intro c hc; simp at hc
        | vBool b => simp [candsField] at h; subst h; intro c hc; simp at hc
        | vString s => simp [candsField] at h; subst h; intro c hc; simp at hc
        | vBytes s => simp [candsField] at h; subst h; intro c hc; simp at hc
        | vList xs => simp [candsField] at h; subst h; intro c hc; simp at hc
        | vAny o => simp [candsField] at h; subst h; intro c hc; simp at hc
        | vOther => simp [candsField] at h; subst h; intro c hc; simp at hc
      | false =>
        cases hsc : splitComma tg with
        | nil =>
          simp [candsField, hsc] at h
          subst h
          intro c hc
          simp at hc
        | cons p0 rest =>
          by_cases h0 : p0 = "-"
          · simp [candsField, hsc, h0] at h
            subst h
            intro c hc
            simp at hc
          · by_cases hr : rest.isEmpty
            · simp [candsField, hsc, h0, hr] at h
              subst h
              intro c hc
              simp at hc
              subst hc
              refine ⟨v, ?_⟩
              show getPath root (pre ++ [i]) = some v
              rw [getPath_append, hg]
              simp [getPath, hfi, fieldVal]
            · simp [candsField, hsc, h0, hr] at h
end

theorem procName_l_cases (nm : String) (i : Nat) (pre : List Nat) (st : CState) :
    ∀ fs ∈ (procName nm i pre st).l, fs ∈ st.l ∨ fs = ⟨nm, pre ++ [i]⟩ := by
  intro fs hf
  by_cases h1 : pre.length = (lookupA st.depth nm).getD (2 ^ 30)
  · simp only [procName, if_pos h1] at hf
    exact Or.inl (List.mem_of_mem_filter hf)
  · by_cases h2 : pre.length < (lookupA st.depth nm).getD (2 ^ 30)
    · simp only [procName, if_neg h1, if_pos h2] at hf
      rcases List.mem_append.mp hf with hm | hm
      · exact Or.inl hm
      · exact Or.inr (by simpa using hm)
    · simp only [procName, if_neg h1, if_neg h2] at hf
      exact Or.inl hf

theorem foldl_l_from_cands :
    ∀ (cs : List Cand) (st : CState) (fs : fieldSpec),
      fs ∈ (cs.foldl candStep st).l → fs ∈ st.l ∨ ∃ c ∈ cs, fs = c.toFS
  | [], _, _, h => Or.inl h
  | c :: cs, st, fs, h => by
    rcases foldl_l_from_cands cs (candStep st c) fs h with hin | ⟨c', hc', he⟩
    · rcases procName_l_cases c.name c.i c.pre st fs hin with hin' | he
      · exact Or.inl hin'
      · exact Or.inr ⟨c, by simp, he⟩
    · exact Or.inr ⟨c', by simp [hc'], he⟩

theorem procName_l_pairwise (nm : String) (i : Nat) (pre : List Nat) (st : CState)
    (hp : st.l.Pairwise (fun a b => ¬a.index <+: b.index ∧ ¬b.index <+: a.index))
    (hcomp : ∀ fs ∈ st.l, ¬fs.index <+: (pre ++ [i]) ∧ ¬(pre ++ [i]) <+: fs.index) :
    (procName nm i pre st).l.Pairwise
      (fun a b => ¬a.index <+: b.index ∧ ¬b.index <+: a.index) := by
  by_cases h1 : pre.length = (lookupA st.depth nm).getD (2 ^ 30)
  · simp only [procName, if_pos h1]
    exact List.Pairwise.sublist (List.filter_sublist _) hp
  · by_cases h2 : pre.length < (lookupA st.depth nm).getD (2 ^ 30)
    · simp only [procName, if_neg h1, if_pos h2]
      rw [List.pairwise_append]
      refine ⟨hp, by simp, ?_⟩
      intro a ha b hb
      simp at hb
      subst hb
      exact hcomp a ha
    · simp only [procName, if_neg h1, if_neg h2]
      exact hp

theorem foldl_l_pairwise :
    ∀ (cs : List Cand) (st : CState),
      cs.Pairwise (fun a b => ¬a.path <+: b.path ∧ ¬b.path <+: a.path) →
      st.l.Pairwise (fun a b => ¬a.index <+: b.index ∧ ¬b.index <+: a.index) →
      (∀ fs ∈ st.l, ∀ c ∈ cs, ¬fs.index <+: c.path ∧ ¬c.path <+: fs.index) →
      (cs.foldl candStep st).l.Pairwise
        (fun a b => ¬a.index <+: b.index ∧ ¬b.index <+: a.index)
  | [], _, _, h2, _ => h2
  | c :: cs, st, h1, h2, h3 => by
    have hp := List.pairwise_cons.mp h1
    apply foldl_l_pairwise cs (candStep st c)
    · exact hp.2
    · apply procName_l_pairwise c.name c.i c.pre st h2
      intro fs hf
      exact h3 fs hf c (by simp)
    · intro fs hf c' hc'
      rcases procName_l_cases c.name c.i c.pre st fs hf with hin | he
      · exact h3 fs hin c' (by simp [hc'])
      · have hcc := hp.1 c' hc'
        rw [he]
        exact ⟨hcc.1, hcc.2⟩

theorem structSpecOf_l_pairwise (v : GoVal) (ss : structSpec)
    (h : structSpecOf v = some ss) :
    ss.l.Pairwise (fun a b => ¬a.index <+: b.index ∧ ¬b.index <+: a.index) := by
  obtain ⟨cs, hcs, _, hl⟩ := structSpecOf_fold v ss h
  rw [hl]
  cases v with
  | vStruct fs =>
    have h1 : candsFields fs 0 [] = some cs := by simpa [candsOf] using hcs
    obtain ⟨_, hpair⟩ := candsFields_shape fs 0 [] cs h1
    exact foldl_l_pairwise cs ⟨[], [], []⟩ hpair (by simp) (by simp)
  | vInt k n => simp [structSpecOf] at h
  | vUint k n => simp [structSpecOf] at h
  | vBool b => simp [structSpecOf] at h
  | vString s => simp [structSpecOf] at h
  | vBytes s => simp [structSpecOf] at h
  | vList xs => simp [structSpecOf] at h
  | vAny o => simp [structSpecOf] at h
  | vOther => simp [structSpecOf] at h

theorem structSpecOf_l_valid (v : GoVal) (ss : structSpec)
    (h : structSpecOf v = some ss) :
    ∀ fs ∈ ss.l, ∃ fv, getPath v fs.index = some fv := by
  obtain ⟨cs, hcs, _, hl⟩ := structSpecOf_fold v ss h
  intro fs hf
  rw [hl] at hf
  rcases foldl_l_from_cands cs ⟨[], [], []⟩ fs hf with hin | ⟨c, hc, he⟩
  · simp at hin
  · cases v with
    | vStruct flds =>
      have h1 : candsFields flds 0 [] = some cs := by simpa [candsOf] using hcs
      obtain ⟨fv, hfv⟩ :=
        candsFields_valid flds 0 [] cs (.vStruct flds) flds h1 rfl rfl c hc
      exact ⟨fv, by rw [he]; exact hfv⟩
    | vInt k n => simp [structSpecOf] at h
    | vUint k n => simp [structSpecOf] at h
    | vBool b => simp [structSpecOf] at h
    | vString s => simp [structSpecOf] at h
    | vBytes s => simp [structSpecOf] at h
    | vList xs => simp [structSpecOf] at h
    | vAny o => simp [structSpecOf] at h
    | vOther => simp [structSpecOf] at h

theorem lookup_m_self_of_nodup (v : GoVal) (ss : structSpec)
    (hss : structSpecOf v = some ss) (hnd : (ss.l.map fieldSpec.name).Nodup) :
    ∀ fs ∈ ss.l, lookupA ss.m fs.name = some fs := by
  intro fs hf
  obtain ⟨inv1, inv2⟩ := structSpecOf_specInv v ss hss
  obtain ⟨fs', hfs'⟩ := inv2 fs hf
  obtain ⟨hname, hmem⟩ := inv1 fs.name fs' hfs'
  have heq : fs' = fs := List.inj_on_of_nodup_map hnd hmem hf hname
  rw [heq] at hfs'
  exact hfs'

/-- Proof glue: the name/Interface pairs AppendStruct emits for a field
list of a struct value. -/
def rawPairs (v : GoVal) : List fieldSpec → List Dyn
  | [] => []
  | fs :: rest =>
    .dynStr fs.name :: toDyn ((getPath v fs.index).getD .vOther) :: rawPairs v rest

/-- Proof glue: the bulk string the wire encoder produces for a value. -/
def encBulk (fv : GoVal) : String :=
  match encodeArg (toDyn fv) with
  | some (.dynBytes s) => s
  | _ => ""

/-- Proof glue: the encoded name/value pairs. -/
def encPairs (v : GoVal) : List fieldSpec → List Dyn
  | [] => []
  | fs :: rest =>
    .dynBytes fs.name :: .dynBytes (encBulk ((getPath v fs.index).getD .vOther)) ::
      encPairs v rest

theorem encPairs_length (v : GoVal) :
    ∀ l : List fieldSpec, (encPairs v l).length = 2 * l.length
  | [] => rfl
  | fs :: rest => by simp [encPairs, encPairs_length v rest]; ring

theorem appendLoop_eq :
    ∀ (l : List fieldSpec) (v : GoVal) (args : List Dyn),
      (∀ fs ∈ l, ∃ fv, getPath v fs.index = some fv) →
      appendLoop v args l = some (args ++ rawPairs v l)
  | [], v, args, _ => by simp [appendLoop, rawPairs]
  | fs :: rest, v, args, h => by
    obtain ⟨fv, hfv⟩ := h fs (by simp)
    simp only [appendLoop, hfv]
    rw [appendLoop_eq rest v _ (fun x hx => h x (by simp [hx]))]
    simp [rawPairs, hfv]

theorem rawPairs_mapM :
    ∀ (l : List fieldSpec) (v : GoVal),
      (∀ fs ∈ l, ∀ fv, getPath v fs.index = some fv → encDec fv = true) →
      (∀ fs ∈ l, ∃ fv, getPath v fs.index = some fv) →
      (rawPairs v l).mapM encodeArg = some (encPairs v l)
  | [], v, _, _ => rfl
  | fs :: rest, v, henc, hval => by
    obtain ⟨fv, hfv⟩ := hval fs (by simp)
    obtain ⟨bs, hbs, _⟩ := encDec_roundtrip fv (henc fs (by simp) fv hfv)
    have hname : encodeArg (.dynStr fs.name) = some (.dynBytes fs.name) := rfl
    have hb : encBulk fv = bs := by simp [encBulk, hbs]
    have ih := rawPairs_mapM rest v (fun x hx => henc x (by simp [hx]))
      (fun x hx => hval x (by simp [hx]))
    rw [show rawPairs v (fs :: rest) = .dynStr fs.name :: toDyn fv :: rawPairs v rest from by
      simp [rawPairs, hfv]]
    rw [List.mapM_cons, List.mapM_cons, hname, hbs, ih]
    simp [encPairs, hfv, hb]

/-- The struct-scan loop over the encoded pairs of a field list with
pairwise-incomparable paths restores, in a destination that holds zeroes
at those paths, the original value of every listed field, touching
nothing else and reporting no error. -/
theorem scanRound (v : GoVal) (ss : structSpec)
    (hm : ∀ fs ∈ ss.l, lookupA ss.m fs.name = some fs) :
    ∀ (l2 : List fieldSpec) (w : GoVal),
      (∀ fs ∈ l2, fs ∈ ss.l) →
      l2.Pairwise (fun a b => ¬a.index <+: b.index ∧ ¬b.index <+: a.index) →
      (∀ fs ∈ l2, ∀ fv, getPath v fs.index = some fv → encDec fv = true) →
      (∀ fs ∈ l2, getPath w fs.index = (getPath v fs.index).map zeroVal) →
      (∀ fs ∈ l2, ∃ fv, getPath v fs.index = some fv) →
      ∃ w', scanStructLoop ss w (encPairs v l2) = some (w', none) ∧
        (∀ fs ∈ l2, getPath w' fs.index = getPath v fs.index) ∧
        (∀ q, (∀ fs ∈ l2, ¬fs.index <+: q ∧ ¬q <+: fs.index) →
          getPath w' q = getPath w q)
  | [], w, _, _, _, _, _ => ⟨w, rfl, by simp, fun q _ => rfl⟩
  | fs0 :: rest, w, hsub, hpw, henc, hcur, hval => by
    obtain ⟨fv, hfv⟩ := hval fs0 (by simp)
    have hencfv := henc fs0 (by simp) fv hfv
    obtain ⟨bs, hbs, hdec⟩ := encDec_roundtrip fv hencfv
    have hb : encBulk fv = bs := by simp [encBulk, hbs]
    have hw0 : getPath w fs0.index = some (zeroVal fv) := by
      rw [hcur fs0 (by simp), hfv]
      rfl
    have hmfs : lookupA ss.m fs0.name = some fs0 := hm fs0 (hsub fs0 (by simp))
    have hpcons := List.pairwise_cons.mp hpw
    obtain ⟨w1, hw1⟩ := setPath_of_getPath w fs0.index (zeroVal fv) fv hw0
    have hget1 : getPath w1 fs0.index = some fv :=
      getPath_setPath_self w fs0.index fv w1 hw1
    have hframe1 : ∀ q, (¬fs0.index <+: q ∧ ¬q <+: fs0.index) →
        getPath w1 q = getPath w q :=
      fun q hq => getPath_setPath_frame fs0.index q w fv w1 hw1 hq
    have hcur1 : ∀ fs ∈ rest, getPath w1 fs.index = (getPath v fs.index).map zeroVal := by
      intro fs hf
      rw [hframe1 fs.index (hpcons.1 fs hf), hcur fs (by simp [hf])]
    obtain ⟨w', hloop, hrest, hframe⟩ := scanRound v ss hm rest w1
      (fun x hx => hsub x (by simp [hx])) hpcons.2
      (fun x hx => henc x (by simp [hx])) hcur1
      (fun x hx => hval x (by simp [hx]))
    refine ⟨w', ?_, ?_, ?_⟩
    · rw [show encPairs v (fs0 :: rest) =
          .dynBytes fs0.name :: .dynBytes bs :: encPairs v rest from by
        simp [encPairs, hfv, hb]]
      simp only [scanStructLoop, hmfs, hw0]
      rw [show convertField (zeroVal fv) (.dynBytes bs) = (fv, none) from hdec]
      simp only [hw1]
      exact hloop
    · intro fs hf
      rcases List.mem_cons.mp hf with he | hf'
      · subst he
        rw [hframe fs.index ?_, hget1, hfv]
        intro x hx
        have hx' := hpcons.1 x hx
        exact ⟨hx'.2, hx'.1⟩
      · exact hrest fs hf'
    · intro q hq
      rw [hframe q (fun x hx => hq x (by simp [hx])), hframe1 q (hq fs0 (by simp))]

/-- C3 (amended): for every struct value whose compiled spec has
pairwise-distinct resolved names (the intended invariant of the
ordered list) and whose spec'd fields all hold wire-encodable scalar
values (in-range integers, booleans, strings, byte slices), flattening
with AppendStruct, encoding every emitted argument to its bulk
byte-string form — as the out-of-scope wire encoder/decoder pair does —
and struct-scanning the result into a freshly zeroed instance of the
same type succeeds with no error and reproduces the original value of
every field of the compiled spec. -/
theorem c3_amended_roundtrip (v : GoVal) (ss : structSpec)
    (hss : structSpecOf v = some ss)
    (hnd : (ss.l.map fieldSpec.name).Nodup)
    (henc : ∀ fs ∈ ss.l, ∀ fv, getPath v fs.index = some fv → encDec fv = true) :
    ∃ args encoded w',
      AppendStruct [] (.ptr v) = some (.ok args) ∧
      args.mapM encodeArg = some encoded ∧
      ScanStruct encoded (.ptr (zeroVal v)) = some (.ptr w', none) ∧
      ∀ fs ∈ ss.l, getPath w' fs.index = getPath v fs.index := by
  have hval := structSpecOf_l_valid v ss hss
  have hpw := structSpecOf_l_pairwise v ss hss
  have hm := lookup_m_self_of_nodup v ss hss hnd
  have happend : AppendStruct [] (.ptr v) = some (.ok (rawPairs v ss.l)) := by
    cases v with
    | vStruct flds =>
      simp only [AppendStruct, hss, appendLoop_eq ss.l (.vStruct flds) [] hval]
      simp
    | vInt k n => simp [structSpecOf] at hss
    | vUint k n => simp [structSpecOf] at hss
    | vBool b => simp [structSpecOf] at hss
    | vString s => simp [structSpecOf] at hss
    | vBytes s => simp [structSpecOf] at hss
    | vList xs => simp [structSpecOf] at hss
    | vAny o => simp [structSpecOf] at hss
    | vOther => simp [structSpecOf] at hss
  have hmapM : (rawPairs v ss.l).mapM encodeArg = some (encPairs v ss.l) :=
    rawPairs_mapM ss.l v henc hval
  obtain ⟨w', hloop, hrest, _⟩ := scanRound v ss hm ss.l (zeroVal v)
    (fun _ hx => hx) hpw henc (fun fs _ => getPath_zeroVal fs.index v) hval
  have hzss : structSpecOf (zeroVal v) = some ss := by
    rw [structSpecOf_zero]
    exact hss
  have heven : ¬(encPairs v ss.l).length % 2 ≠ 0 := by
    rw [encPairs_length]
    omega
  have hscan : ScanStruct (encPairs v ss.l) (.ptr (zeroVal v)) = some (.ptr w', none) := by
    simp only [ScanStruct, hzss, if_neg heven, hloop]
  exact ⟨rawPairs v ss.l, encPairs v ss.l, w', happend, hmapM, hscan, hrest⟩

/-- Example: struct { Count int; Name string } with Count == 5 and
Name == "bob". -/
def structCN : GoVal :=
  .vStruct [.mk "Count" "" true false (.vInt .iInt 5),
            .mk "Name" "" true false (.vString "bob")]

theorem c3_amended_roundtrip_witness :
    (structSpecOf structCN =
        some ⟨[("Count", ⟨"Count", [0]⟩), ("Name", ⟨"Name", [1]⟩)],
          [⟨"Count", [0]⟩, ⟨"Name", [1]⟩]⟩ ∧
      (([⟨"Count", [0]⟩, ⟨"Name", [1]⟩] : List fieldSpec).map fieldSpec.name).Nodup) ∧
      ∃ args encoded w',
        AppendStruct [] (.ptr structCN) = some (.ok args) ∧
        args.mapM encodeArg = some encoded ∧
        ScanStruct encoded (.ptr (zeroVal structCN)) = some (.ptr w', none) ∧
        ∀ fs ∈ ([⟨"Count", [0]⟩, ⟨"Name", [1]⟩] : List fieldSpec),
          getPath w' fs.index = getPath structCN fs.index := by
  have hss : structSpecOf structCN =
      some ⟨[("Count", ⟨"Count", [0]⟩), ("Name", ⟨"Name", [1]⟩)],
        [⟨"Count", [0]⟩, ⟨"Name", [1]⟩]⟩ := by decide
  refine ⟨⟨hss, by decide⟩, ?_⟩
  refine c3_amended_roundtrip structCN _ hss (by decide) ?_
  intro fs hf fv hfv
  simp at hf
  rcases hf with h1 | h2
  · subst h1
    rw [show getPath structCN [0] = some (.vInt .iInt 5) from rfl] at hfv
    injection hfv with hv
    subst hv
    decide
  · subst h2
    rw [show getPath structCN [1] = some (.vString "bob") from rfl] at hfv
    injection hfv with hv
    subst hv
    decide
